import Mathlib

/-!
Verification of the chariot dependency-injection container (src/app.go,
src/option.go) against its natural-language specification.

The embedding models the reflect-level data the container works with:

* a `Kind` is a reflect.Type used as the registry key; its `isErr` field
  records whether the type implements the error interface (a static
  property of the type, queried by `Implements` in the source);
* a `GoValue` is a reflect.Value: its declared type, whether it is nil,
  whether the concrete value satisfies the Runner and Shutdowner
  interfaces, and a tag identifying it;
* an `Initializer` is the reflect view of an initializer function: its
  parameter types, whether the trailing parameter is variadic, and the
  values a call to it returns (reflect gives call results the declared
  result types, so the declared output types are the types of `rets`).

Functions are translated one to one from src/app.go; the mutually
recursive pair initializeComponent/ins (lines 348-406) is packaged as the
single fuel-indexed function `resolveStep` so that the recursion is
structural on the fuel, with thin wrappers keeping the source names. The
fuel only bounds the recursion depth; `AppError.fuelExhausted` never
occurs when the fuel dominates the dependency ranks (proved below).
State that Go mutates in place (the component map, the runner and
shutdowner slices, the cycle set) is threaded explicitly through `St`,
together with instrumentation logs: `calls` records every invocation of a
constructor (its index in the merged initializer list and how many
arguments were passed), `initCalls` the same for zero-output
initializers.
-/

/-- A reflect.Type used as a component identity: a nominal kind plus the
static fact whether the type implements the error interface. -/
structure Kind where
  id : Nat
  isErr : Bool
deriving DecidableEq, Repr

/-- A reflect.Value: its (declared) type, nil-ness, whether the concrete
value satisfies Runner and Shutdowner, and an identifying tag. -/
structure GoValue where
  type : Kind
  isNil : Bool
  isRunner : Bool
  isShutdowner : Bool
  tag : Nat
deriving DecidableEq, Repr

/-- The zero reflect.Value used only as a default for total lookups on
paths the Go code cannot reach. -/
def zeroGoValue : GoValue := ⟨⟨0, false⟩, true, false, false, 0⟩

/-- The reflect view of one initializer function: parameter types,
whether the final parameter is variadic, and the values returned when the
function is called (their `type` fields are the declared result types). -/
structure Initializer where
  inTypes : List Kind
  variadic : Bool
  rets : List GoValue
deriving DecidableEq, Repr

/-- The zero Initializer, default for total indexing. -/
def defaultInit : Initializer := ⟨[], false, []⟩

/-- Go type `component` (src/app.go lines 439-443): dependency kinds, the
constructor (identified by its index in the merged initializer list), and
the optional resolved value (reflect.Value.IsValid is `Option.isSome`). -/
structure ComponentR where
  dependencies : List Kind
  constructor : Nat
  value : Option GoValue
deriving DecidableEq, Repr

/-- Go type `initFunc` (src/app.go lines 434-437): a zero-output
initializer kept aside with its dependency kinds. -/
structure InitFunc where
  dependencies : List Kind
  init : Nat
deriving DecidableEq, Repr

/-- The component registry: Go map[reflect.Type]*component as an
association list (inserted keys are distinct, see collectComponents). -/
abbrev CMap := List (Kind × ComponentR)

/-- Errors New can return, matching those built in src/app.go. The
`goError` case carries the non-nil error value an initializer returned
(the source returns that very value). `fuelExhausted` is an artifact of
the fuel-indexed embedding and never occurs with sufficient fuel. -/
inductive AppError where
  | duplicating (k : Kind)
  | missingDependency (k : Kind)
  | cycleDetected
  | goError (v : GoValue)
  | fuelExhausted
deriving DecidableEq, Repr

/-- The mutable state of an App during New (src/app.go): the registry,
the collected runners and shutdowners, the cycle set threaded through
resolution, plus the merged initializer list (immutable, holding the
callables the registry indexes into) and the instrumentation logs. -/
structure St where
  prog : List Initializer
  components : CMap
  runners : List GoValue
  shutdowners : List GoValue
  cycle : List Kind
  calls : List (Nat × Nat)
  initCalls : List (Nat × Nat)
deriving DecidableEq, Repr

/-- The fields of Go struct App the claims are about: the registry and
the two capability slices (ctx and cancel are modeled by the shutdown
event trace instead). -/
structure App where
  components : CMap
  runners : List GoValue
  shutdowners : List GoValue
deriving DecidableEq, Repr

/-- Go App{}: the zero App value returned alongside every error. -/
def App.emptyApp : App := ⟨[], [], []⟩

/-- Map lookup: a.components[k]. -/
def lookupC (m : CMap) (k : Kind) : Option ComponentR :=
  (m.find? fun e => decide (e.1 = k)).map Prod.snd

/-- a.components[k].value = v (the key is always present when the source
reaches this assignment; on an absent key this is a no-op). -/
def setValue (m : CMap) (k : Kind) (v : GoValue) : CMap :=
  m.map fun e => if e.1 = k then (e.1, { e.2 with value := some v }) else e

/-- delete(cycle, k) on the cycle set. -/
def removeKind (k : Kind) (c : List Kind) : List Kind :=
  c.filter fun y => decide ¬(y = k)

/-- The keys of the registry. -/
def keysOf (m : CMap) : List Kind := m.map Prod.fst

/-- The dependency kinds of an initializer (src/app.go lines 289-296):
every parameter type except a trailing variadic one. -/
def depsOf (i : Initializer) : List Kind :=
  if i.variadic then i.inTypes.dropLast else i.inTypes

/-- The product kinds of an initializer (src/app.go lines 298-301): the
declared result types, excluding a final result whose type implements
error. -/
def outKindsOf (i : Initializer) : List Kind :=
  let outs := i.rets.map GoValue.type
  match outs.getLast? with
  | some k => if k.isErr then outs.dropLast else outs
  | none => []

/-- mergeComponentsInitializers (src/app.go lines 262-282) synthesizes,
for a pre-built component value, a no-argument constructor returning that
value (reflect.TypeOf gives the dynamic type of the value). -/
def mkComponentConstructor (v : GoValue) : Initializer :=
  ⟨[], false, [v]⟩

/-- mergeComponentsInitializers (src/app.go lines 262-282): append one
synthesized constructor per pre-built component to the initializers. -/
def mergeComponentsInitializers (components : List GoValue)
    (initializers : List Initializer) : List Initializer :=
  initializers ++ components.map mkComponentConstructor

/-- The registration loop of collectComponents (src/app.go lines
311-322): register each product kind, failing on a kind that is already
present. -/
def registerOuts (deps : List Kind) (ctor : Nat) (m : CMap) :
    List Kind → Except AppError CMap
  | [] => .ok m
  | k :: rest =>
    if (lookupC m k).isSome then .error (.duplicating k)
    else registerOuts deps ctor (m ++ [(k, ⟨deps, ctor, none⟩)]) rest

/-- collectComponents (src/app.go lines 284-326): classify each
initializer, in order, as a constructor (registered under each product
kind) or a zero-output init (kept aside with its dependencies). `idx` is
the position of the first initializer in the merged list. -/
def collectComponents (m : CMap) (initializers : List Initializer)
    (idx : Nat) : Except AppError (List InitFunc × CMap) :=
  match initializers with
  | [] => .ok ([], m)
  | i :: rest =>
    let deps := depsOf i
    let outs := outKindsOf i
    if outs.isEmpty then
      match collectComponents m rest (idx + 1) with
      | .ok (inits, m1) => .ok (⟨deps, idx⟩ :: inits, m1)
      | .error e => .error e
    else
      match registerOuts deps idx m outs with
      | .error e => .error e
      | .ok m1 => collectComponents m1 rest (idx + 1)

/-- The per-output bookkeeping of initializeComponent (src/app.go lines
368-378): store the value under its type and collect the Runner and
Shutdowner capabilities. -/
def storeOut (st : St) (out : GoValue) : St :=
  let st1 := { st with components := setValue st.components out.type out }
  let st2 :=
    if out.isRunner then { st1 with runners := st1.runners ++ [out] } else st1
  if out.isShutdowner then
    { st2 with shutdowners := st2.shutdowners ++ [out] }
  else st2

/-- Fold of storeOut over the (error-trimmed) outputs of a constructor
call. -/
def storeOuts (outs : List GoValue) (st : St) : St :=
  outs.foldl storeOut st

/-- The two jobs of the mutually recursive resolution pair: resolving one
component record (initializeComponent) and gathering the values of a
dependency list (ins). -/
inductive Job where
  | comp (c : ComponentR)
  | deps (ds : List Kind)

/-- The tail of initializeComponent after the dependency values are at
hand (src/app.go lines 358-380): call the constructor (logged with the
argument count), inspect the last result, propagate it when it is a
non-nil error, drop it when it is a nil error, and store the remaining
outputs. -/
def fireConstructor (c : ComponentR) (args : List GoValue) (st : St) :
    Except AppError (List GoValue) × St :=
  let i := st.prog.getD c.constructor defaultInit
  let st1 := { st with calls := st.calls ++ [(c.constructor, args.length)] }
  match i.rets.getLast? with
  | none => (.ok [], st1)
  | some last =>
    if last.type.isErr then
      if last.isNil then (.ok [], storeOuts i.rets.dropLast st1)
      else (.error (.goError last), st1)
    else (.ok [], storeOuts i.rets st1)

/-- The mutually recursive pair initializeComponent/ins of src/app.go
(lines 348-406), packaged over a fuel so the recursion is structural.
The `comp` case is initializeComponent: return at once when the record
already holds a value, otherwise gather the dependency values, call the
constructor (logged in `calls` with the argument count), propagate a
non-nil trailing error result, and otherwise store each output. The
`deps` case is the loop body of ins: look the dependency up (missing
dependency error when absent), fail when it is already on the cycle path,
push it onto the path, resolve it recursively, read its value, remove it
from the path and continue - on a failed recursive resolution the source
returns at once, without removing the kind from the path. -/
def resolveStep : Nat → Job → St → Except AppError (List GoValue) × St
  | fuel, .comp c, st =>
    if c.value.isSome then (.ok [], st)
    else
      match fuel with
      | 0 => (.error .fuelExhausted, st)
      | f + 1 =>
        match resolveStep f (.deps c.dependencies) st with
        | (.error e, st1) => (.error e, st1)
        | (.ok args, st1) => fireConstructor c args st1
  | _, .deps [], st => (.ok [], st)
  | fuel, .deps (d :: rest), st =>
    match fuel with
    | 0 => (.error .fuelExhausted, st)
    | f + 1 =>
      match lookupC st.components d with
      | none => (.error (.missingDependency d), st)
      | some dep =>
        if d ∈ st.cycle then (.error .cycleDetected, st)
        else
          let st1 := { st with cycle := d :: st.cycle }
          match resolveStep f (.comp dep) st1 with
          | (.error e, st2) => (.error e, st2)
          | (.ok _, st2) =>
            let v := ((lookupC st2.components d).bind ComponentR.value).getD zeroGoValue
            let st3 := { st2 with cycle := removeKind d st2.cycle }
            match resolveStep f (.deps rest) st3 with
            | (.ok vs, st4) => (.ok (v :: vs), st4)
            | (.error e, st4) => (.error e, st4)

/-- initializeComponent (src/app.go lines 348-381) as a wrapper over
resolveStep: Go returns only the error. -/
def initializeComponent (fuel : Nat) (c : ComponentR) (st : St) :
    Option AppError × St :=
  match resolveStep fuel (.comp c) st with
  | (.ok _, st1) => (none, st1)
  | (.error e, st1) => (some e, st1)

/-- ins (src/app.go lines 383-406) as a wrapper over resolveStep. -/
def ins (fuel : Nat) (deps : List Kind) (st : St) :
    Except AppError (List GoValue) × St :=
  resolveStep fuel (.deps deps) st

/-- The range loop of initializeComponents (src/app.go lines 334-343)
over the registry keys in some order: push the key on the cycle path,
resolve its record, and pop the key - an error is returned at once,
without popping. -/
def initializeComponentsLoop (fuel : Nat) (order : List Kind) (st : St) :
    Option AppError × St :=
  match order with
  | [] => (none, st)
  | k :: rest =>
    let st1 := { st with cycle := k :: st.cycle }
    match lookupC st1.components k with
    | none =>
      initializeComponentsLoop fuel rest { st1 with cycle := removeKind k st1.cycle }
    | some c =>
      match initializeComponent fuel c st1 with
      | (some e, st2) => (some e, st2)
      | (none, st2) =>
        initializeComponentsLoop fuel rest { st2 with cycle := removeKind k st2.cycle }

/-- initializeComponents (src/app.go lines 328-346): collect the
components off the initializer list, then resolve every registry entry
(the map iteration order is modeled as the insertion order of the
association list). -/
def initializeComponents (fuel : Nat) (st : St)
    (initializers : List Initializer) : Except AppError (List InitFunc) × St :=
  match collectComponents st.components initializers 0 with
  | .error e => (.error e, st)
  | .ok (inits, m) =>
    let st1 := { st with components := m }
    match initializeComponentsLoop fuel (keysOf m) st1 with
    | (some e, st2) => (.error e, st2)
    | (none, st2) => (.ok inits, st2)

/-- The dependency gathering of invokeInits (src/app.go lines 410-418):
look each dependency up in the now-resolved registry (never re-triggering
resolution) and read its value. -/
def insOfInit (st : St) : List Kind → Except AppError (List GoValue)
  | [] => .ok []
  | d :: rest =>
    match lookupC st.components d with
    | none => .error (.missingDependency d)
    | some c =>
      match insOfInit st rest with
      | .ok vs => .ok ((c.value.getD zeroGoValue) :: vs)
      | .error e => .error e

/-- invokeInits (src/app.go lines 408-432): run every zero-output
initializer in declaration order; a non-nil (single, error-typed) result
aborts with that value. Each call is logged in `initCalls`. -/
def invokeInits (st : St) : List InitFunc → Option AppError × St
  | [] => (none, st)
  | i :: rest =>
    match insOfInit st i.dependencies with
    | .error e => (some e, st)
    | .ok args =>
      let st1 := { st with initCalls := st.initCalls ++ [(i.init, args.length)] }
      match (st1.prog.getD i.init defaultInit).rets with
      | [] => invokeInits st1 rest
      | e :: _ =>
        if e.isNil then invokeInits st1 rest
        else (some (.goError e), st1)

/-- The kind of context.Context, pre-registered by setCtxComponent
(src/app.go lines 235-254). It does not implement error. -/
def ctxKind : Kind := ⟨0, false⟩

/-- The ambient context value stored under ctxKind. -/
def ctxValue : GoValue := ⟨ctxKind, false, false, false, 0⟩

/-- The state New starts resolution from: the registry holds only the
context component (already resolved, never reconstructed). -/
def initialSt (prog : List Initializer) : St :=
  { prog := prog
    components := [(ctxKind, ⟨[], 0, some ctxValue⟩)]
    runners := []
    shutdowners := []
    cycle := []
    calls := []
    initCalls := [] }

/-- One step of the shutdown orchestrator trace. -/
inductive ShutdownEvent where
  | shut (tag : Nat)
  | cancelRoot
deriving DecidableEq, Repr

/-- The downward loop of App.Shutdown (src/app.go lines 207-209):
invoke shutdowners[i-1], ..., shutdowners[0]. -/
def shutdownLoopFrom (shutdowners : List GoValue) : Nat → List ShutdownEvent
  | 0 => []
  | i + 1 =>
    .shut (shutdowners.getD i zeroGoValue).tag :: shutdownLoopFrom shutdowners i

/-- The full shutdown loop: from the last collected shutdowner down to
the first. -/
def shutdownLoop (shutdowners : List GoValue) : List ShutdownEvent :=
  shutdownLoopFrom shutdowners shutdowners.length

/-- App.Shutdown (src/app.go lines 182-210) as its event trace: the
reverse-order loop over the shutdowners, then the deferred a.cancel()
(registered first, hence run last) cancelling the root context. -/
def App.shutdownTrace (a : App) : List ShutdownEvent :=
  shutdownLoop a.shutdowners ++ [.cancelRoot]

/-- App.Retrieve (src/app.go lines 213-224): the found flag and the
stored value of the looked-up record. -/
def App.retrieveC (a : App) (k : Kind) : Bool × Option GoValue :=
  match lookupC a.components k with
  | none => (false, none)
  | some c => (true, c.value)

/-- The outcome of New (src/app.go lines 82-117): the returned App (the
zero App alongside every error), the returned error, the final internal
state with its instrumentation logs, and the trace of the deferred
Shutdown that runs when New fails. -/
structure NewResult where
  app : App
  err : Option AppError
  final : St
  shutdownEvents : List ShutdownEvent
deriving DecidableEq, Repr

/-- New (src/app.go lines 82-117): merge pre-built components into the
initializer list, collect and resolve all components, then invoke the
zero-output initializers; on any error return the zero App together with
the error, after the deferred Shutdown released the already-constructed
shutdowners (reverse order, then root cancellation). -/
def New (fuel : Nat) (components : List GoValue)
    (initializers : List Initializer) : NewResult :=
  let prog := mergeComponentsInitializers components initializers
  let st := initialSt prog
  match initializeComponents fuel st prog with
  | (.error e, st1) =>
    { app := App.emptyApp
      err := some e
      final := st1
      shutdownEvents := shutdownLoop st1.shutdowners ++ [.cancelRoot] }
  | (.ok inits, st1) =>
    match invokeInits st1 inits with
    | (some e, st2) =>
      { app := App.emptyApp
        err := some e
        final := st2
        shutdownEvents := shutdownLoop st2.shutdowners ++ [.cancelRoot] }
    | (none, st2) =>
      { app := ⟨st2.components, st2.runners, st2.shutdowners⟩
        err := none
        final := st2
        shutdownEvents := [] }

/-- The errors App.Run receives on its channel (src/app.go lines
148-164), given the outcome of each runner (indexed by position in the
RunnerSet, `none` = returned nil) and the order in which the runners
completed: each failing runner sends its error in completion order. -/
def runChannel (outcomes : List (Option Nat)) (completion : List Nat) : List Nat :=
  completion.filterMap fun i => outcomes.getD i none

/-- The error aggregation of App.Run (src/app.go lines 165-175): nil when
the channel closes empty, otherwise errors.Join with the first received
error at the head and the remaining ones behind it. -/
def runAggregate (outcomes : List (Option Nat)) (completion : List Nat) :
    Option (List Nat) :=
  match runChannel outcomes completion with
  | [] => none
  | e :: rest => some (e :: rest)

/-- The invocations App.Run makes of the error handler installed by
WithErrHandler: the body of Run (src/app.go lines 124-176) never reads
options.handler, so the trace is empty for every input. -/
def runHandlerCalls (_outcomes : List (Option Nat)) (_completion : List Nat) :
    List Nat :=
  []

/-- Decidable equality on Except, for concrete evaluation of results. -/
instance {ε α : Type} [DecidableEq ε] [DecidableEq α] : DecidableEq (Except ε α) := fun x y =>
  match x, y with
  | .error a, .error b =>
    if h : a = b then .isTrue (by rw [h]) else .isFalse (by intro hh; cases hh; exact h rfl)
  | .ok a, .ok b =>
    if h : a = b then .isTrue (by rw [h]) else .isFalse (by intro hh; cases hh; exact h rfl)
  | .error _, .ok _ => .isFalse (by intro hh; cases hh)
  | .ok _, .error _ => .isFalse (by intro hh; cases hh)

/-- The state for the C4 counterexample: kind 2 is registered with a
dependency on the unregistered kind 3, the resolution path starts empty. -/
def c4FailState : St :=
  { prog := [⟨[⟨3, false⟩], false, [⟨⟨2, false⟩, false, false, false, 0⟩]⟩]
    components := [(⟨2, false⟩, ⟨[⟨3, false⟩], 0, none⟩)]
    runners := []
    shutdowners := []
    cycle := []
    calls := []
    initCalls := [] }

/-- The state for the C4 amended witness: kind 1 already resolved. -/
def c4OkState : St :=
  { prog := []
    components := [(⟨1, false⟩, ⟨[], 0, some ⟨⟨1, false⟩, false, false, false, 7⟩⟩)]
    runners := []
    shutdowners := []
    cycle := []
    calls := []
    initCalls := [] }

/-- The program for the C6 witness: position 0 constructs a
shutdown-capable component of kind 1, position 1 is a zero-output
initializer depending on it that fails with a non-nil error. -/
def c6Program : List Initializer :=
  [⟨[], false, [⟨⟨1, false⟩, false, false, true, 3⟩]⟩,
   ⟨[⟨1, false⟩], false, [⟨⟨9, true⟩, false, false, false, 4⟩]⟩]

/-- Static coherence of the registry with the merged initializer list:
every unresolved record carries exactly the dependency list derived from
the declaration of its constructor. -/
def depsMatch (st : St) : Prop :=
  ∀ k c, lookupC st.components k = some c → c.value = none →
    c.dependencies = depsOf (st.prog.getD c.constructor defaultInit)

/-- The program for the C8 witness: position 0 constructs kind 1,
position 1 is a variadic constructor of kind 3 depending on kind 1. -/
def c8Program : List Initializer :=
  [⟨[], false, [⟨⟨1, false⟩, false, false, false, 10⟩]⟩,
   ⟨[⟨1, false⟩, ⟨2, false⟩], true, [⟨⟨3, false⟩, false, false, false, 30⟩]⟩]

/-- A kind whose registry record holds a resolved value. -/
def valuedAt (st : St) (k : Kind) : Prop :=
  ∃ c, lookupC st.components k = some c ∧ c.value.isSome = true

/-- The resolution invariant of a well-formed assembly: the registry keys
are distinct; every unresolved record is coherent with the merged
initializer list (valid constructor index, the derived dependency list,
membership in its constructor's products, at most D dependencies, each of
strictly smaller rank, and a present result list whose trailing error slot
is nil); every dependency of a record is itself registered; every product
kind of every position has a record owned by that position; and the call
log counts exactly one invocation for a position all of whose products are
resolved, and none otherwise. -/
structure ResolveInv (prog : List Initializer) (rank : Kind → Nat) (D : Nat)
    (st : St) : Prop where
  progEq : st.prog = prog
  nodupKeys : (keysOf st.components).Nodup
  good : ∀ k c, lookupC st.components k = some c → c.value = none →
    c.constructor < prog.length ∧
    c.dependencies = depsOf (prog.getD c.constructor defaultInit) ∧
    k ∈ outKindsOf (prog.getD c.constructor defaultInit) ∧
    c.dependencies.length ≤ D ∧
    (∀ d ∈ c.dependencies, rank d < rank k) ∧
    (∃ last, (prog.getD c.constructor defaultInit).rets.getLast? = some last ∧
      (last.type.isErr = true → last.isNil = true))
  depsKeys : ∀ k c, lookupC st.components k = some c →
    ∀ d ∈ c.dependencies, (lookupC st.components d).isSome = true
  prodRec : ∀ p, p < prog.length →
    ∀ k ∈ outKindsOf (prog.getD p defaultInit), ∃ c,
      lookupC st.components k = some c ∧ c.constructor = p
  countFired : ∀ p, p < prog.length →
    (∀ k ∈ outKindsOf (prog.getD p defaultInit), valuedAt st k) →
    outKindsOf (prog.getD p defaultInit) ≠ [] →
    (st.calls.map Prod.fst).count p = 1
  countIdle : ∀ p,
    ((∃ k ∈ outKindsOf (prog.getD p defaultInit), ¬ valuedAt st k) ∨
      ¬ p < prog.length ∨ outKindsOf (prog.getD p defaultInit) = []) →
    (st.calls.map Prod.fst).count p = 0

/-- What every resolution step preserves: the program, the key set, and
the static fields of every record (a resolved value stays resolved). -/
structure StepMono (st st1 : St) : Prop where
  progEq : st1.prog = st.prog
  keysEq : keysOf st1.components = keysOf st.components
  recPres : ∀ k c, lookupC st.components k = some c →
    ∃ c1, lookupC st1.components k = some c1 ∧
      c1.constructor = c.constructor ∧ c1.dependencies = c.dependencies ∧
      (c.value.isSome = true → c1.value.isSome = true)

/-- The merged list of the C2 witness: a constructor of kind 1 from the
context, a constructor of kind 2 from kind 1 returning a nil trailing
error, and one zero-output action depending on kind 2. -/
def c2Program : List Initializer :=
  [⟨[ctxKind], false, [⟨⟨1, false⟩, false, false, false, 10⟩]⟩,
   ⟨[⟨1, false⟩], false, [⟨⟨2, false⟩, false, false, false, 20⟩,
     ⟨⟨9, true⟩, true, false, false, 0⟩]⟩,
   ⟨[⟨2, false⟩], false, []⟩]

theorem lookupC_isSome_iff_mem (m : CMap) (k : Kind) :
    (lookupC m k).isSome ↔ k ∈ keysOf m := by
  induction m with
  | nil => simp [lookupC, keysOf]
  | cons e rest ih =>
    by_cases h : e.1 = k
    · simp [lookupC, keysOf, List.find?, h]
    · simpa [lookupC, keysOf, List.find?, h, Ne.symm h] using ih

theorem lookupC_eq_none_iff (m : CMap) (k : Kind) :
    lookupC m k = none ↔ k ∉ keysOf m := by
  rw [← lookupC_isSome_iff_mem]
  cases lookupC m k <;> simp

theorem lookupC_append (m1 m2 : CMap) (k : Kind) :
    lookupC (m1 ++ m2) k =
      match lookupC m1 k with
      | some c => some c
      | none => lookupC m2 k := by
  induction m1 with
  | nil => simp [lookupC]
  | cons e rest ih =>
    by_cases h : e.1 = k
    · simp [lookupC, List.find?, h]
    · simpa [lookupC, List.find?, h] using ih

theorem keysOf_append (m1 m2 : CMap) : keysOf (m1 ++ m2) = keysOf m1 ++ keysOf m2 := by
  simp [keysOf]

/-- The shutdown loop visits the shutdowners in reverse order. -/
theorem shutdownLoopFrom_eq (ss : List GoValue) :
    ∀ n, n ≤ ss.length →
      shutdownLoopFrom ss n =
        ((ss.take n).reverse).map (fun v => ShutdownEvent.shut v.tag) := by
  intro n
  induction n with
  | zero => intro; rfl
  | succ n ih =>
    intro h
    have hn : n < ss.length := h
    have hh : ss.take (n + 1) = ss.take n ++ [ss.get ⟨n, hn⟩] := by
      rw [List.take_succ]
      simp [List.getElem?_eq_getElem hn]
    rw [shutdownLoopFrom, ih (Nat.le_of_lt hn), hh]
    rw [List.reverse_append]
    simp [List.getD_eq_getElem?_getD, List.getElem?_eq_getElem hn]

theorem shutdownLoop_eq (ss : List GoValue) :
    shutdownLoop ss = ss.reverse.map (fun v => ShutdownEvent.shut v.tag) := by
  rw [shutdownLoop, shutdownLoopFrom_eq ss ss.length (Nat.le_refl _)]
  simp

/-- C5: App.Shutdown invokes the shutdown capability of the collected
shutdowners sequentially in strict reverse of the collection order, and
cancels the root token as its final act (the last event of the trace),
so the ambient token reports cancelled after Shutdown returns. -/
theorem c5_shutdown_reverse_and_cancels_root (a : App) :
    a.shutdownTrace =
      (a.shutdowners.reverse.map fun v => ShutdownEvent.shut v.tag) ++
        [ShutdownEvent.cancelRoot] ∧
    a.shutdownTrace.getLast? = some ShutdownEvent.cancelRoot := by
  constructor
  · rw [App.shutdownTrace, shutdownLoop_eq]
  · rw [App.shutdownTrace]
    simp

/-- C10: whenever New fails, the App value returned alongside the error
is the zero App: no partially assembled container is exposed. -/
theorem c10_zero_app_on_failure (fuel : Nat) (cs : List GoValue)
    (is : List Initializer) (h : (New fuel cs is).err.isSome) :
    (New fuel cs is).app = App.emptyApp := by
  revert h
  unfold New
  dsimp only
  split
  · intro; rfl
  · split
    · intro; rfl
    · intro h; simp at h

/-- C10 witness: a failing input (duplicate product kind) on which New
indeed fails and returns the zero App. -/
theorem c10_witness :
    ((New 10 [] [⟨[], false, [⟨⟨1, false⟩, false, false, false, 1⟩]⟩,
        ⟨[], false, [⟨⟨1, false⟩, false, false, false, 2⟩]⟩]).err.isSome) ∧
    (New 10 [] [⟨[], false, [⟨⟨1, false⟩, false, false, false, 1⟩]⟩,
        ⟨[], false, [⟨⟨1, false⟩, false, false, false, 2⟩]⟩]).app = App.emptyApp :=
  ⟨by decide, c10_zero_app_on_failure 10 _ _ (by decide)⟩

/-- C1: the body of App.Run never reads the handler installed by
WithErrHandler; on a run in which two runner tasks fail (errors 1 then 2
in completion order) the handler invocation trace is empty even though a
secondary failure exists and is aggregated into the returned error. -/
theorem c1_handler_never_invoked :
    runHandlerCalls [some 1, some 2] [0, 1] = [] ∧
    runAggregate [some 1, some 2] [0, 1] = some [1, 2] :=
  ⟨rfl, by decide⟩

theorem runChannel_eq_nil_iff (outcomes : List (Option Nat)) (completion : List Nat)
    (hperm : completion.Perm (List.range outcomes.length)) :
    runChannel outcomes completion = [] ↔ ∀ o ∈ outcomes, o = none := by
  rw [runChannel, List.filterMap_eq_nil]
  constructor
  · intro h o ho
    obtain ⟨j, hj, rfl⟩ := List.getElem_of_mem ho
    have hjc : j ∈ completion := by
      refine hperm.symm.subset ?_
      simpa using hj
    have hd := h j hjc
    rwa [List.getD_eq_getElem?_getD, List.getElem?_eq_getElem hj] at hd
  · intro h i _
    by_cases hlt : i < outcomes.length
    · rw [List.getD_eq_getElem?_getD, List.getElem?_eq_getElem hlt]
      exact h _ (List.getElem_mem hlt)
    · rw [List.getD_eq_getElem?_getD, List.getElem?_eq_none (Nat.le_of_not_lt hlt)]
      rfl

/-- C7: App.Run returns the no-failure outcome exactly when no runner
task failed; on failure it aggregates the received errors with the first
failure (by completion order) at the head and the remaining ones as
secondary causes; an empty RunnerSet yields the no-failure outcome. -/
theorem c7_run_aggregation (outcomes : List (Option Nat)) (completion : List Nat)
    (hperm : completion.Perm (List.range outcomes.length)) :
    (runAggregate outcomes completion = none ↔ ∀ o ∈ outcomes, o = none) ∧
    (∀ l, runAggregate outcomes completion = some l →
      l ≠ [] ∧ l = runChannel outcomes completion) ∧
    (outcomes = [] → runAggregate outcomes completion = none) := by
  refine ⟨?_, ?_, ?_⟩
  · rw [runAggregate]
    rcases hc : runChannel outcomes completion with _ | ⟨e, rest⟩
    · simpa using (runChannel_eq_nil_iff outcomes completion hperm).mp hc
    · simp only []
      constructor
      · intro h; cases h
      · intro h
        have := (runChannel_eq_nil_iff outcomes completion hperm).mpr h
        rw [hc] at this
        cases this
  · intro l hl
    rw [runAggregate] at hl
    rcases hc : runChannel outcomes completion with _ | ⟨e, rest⟩ <;> rw [hc] at hl
    · cases hl
    · cases hl
      exact ⟨by simp, rfl⟩
  · intro h
    rw [runAggregate]
    have : runChannel outcomes completion = [] := by
      apply (runChannel_eq_nil_iff outcomes completion hperm).mpr
      intro o ho
      rw [h] at ho
      cases ho
    rw [this]

/-- C7 witness: two runners, the second failing with error 9 and
completing first. -/
theorem c7_witness :
    ([1, 0].Perm (List.range 2)) ∧
    ((runAggregate [none, some 9] [1, 0] = none ↔ ∀ o ∈ [none, some 9], o = none) ∧
      (∀ l, runAggregate [none, some 9] [1, 0] = some l →
        l ≠ [] ∧ l = runChannel [none, some 9] [1, 0]) ∧
      ([none, some 9] = ([] : List (Option Nat)) →
        runAggregate [none, some 9] [1, 0] = none)) :=
  ⟨by decide, c7_run_aggregation [none, some 9] [1, 0] (by decide)⟩

theorem removeKind_of_not_mem (k : Kind) (c : List Kind) (h : k ∉ c) :
    removeKind k c = c := by
  rw [removeKind]
  apply List.filter_eq_self.mpr
  intro y hy
  simp only [decide_eq_true_eq]
  intro hk
  exact h (hk ▸ hy)

theorem removeKind_cons_self (k : Kind) (c : List Kind) :
    removeKind k (k :: c) = removeKind k c := by
  simp [removeKind]

theorem storeOut_cycle (st : St) (out : GoValue) : (storeOut st out).cycle = st.cycle := by
  rw [storeOut]
  dsimp only
  split <;> split <;> rfl

theorem storeOuts_cycle (outs : List GoValue) (st : St) :
    (storeOuts outs st).cycle = st.cycle := by
  induction outs generalizing st with
  | nil => rfl
  | cons o rest ih =>
    show (storeOuts rest (storeOut st o)).cycle = st.cycle
    rw [ih, storeOut_cycle]

theorem fireConstructor_cycle (c : ComponentR) (args : List GoValue) (st : St) :
    (fireConstructor c args st).2.cycle = st.cycle := by
  rw [fireConstructor]
  split
  · rfl
  · split
    · split <;> simp [storeOuts_cycle]
    · simp [storeOuts_cycle]

/-- On a successful return, resolveStep leaves the cycle path exactly as
it found it. -/
theorem resolveStep_ok_cycle (fuel : Nat) :
    ∀ job st vs st1, resolveStep fuel job st = (.ok vs, st1) →
      st1.cycle = st.cycle := by
  induction fuel with
  | zero =>
    intro job st vs st1 h
    match job with
    | .comp c =>
      simp only [resolveStep] at h
      split at h
      · cases h; rfl
      · cases h
    | .deps [] =>
      simp only [resolveStep] at h
      cases h; rfl
    | .deps (d :: rest) =>
      simp only [resolveStep] at h
      cases h
  | succ f ih =>
    intro job st vs st1 h
    match job with
    | .comp c =>
      simp only [resolveStep] at h
      split at h
      · cases h; rfl
      · split at h
        · cases h
        · rename_i args std heq
          have hcd := ih _ _ _ _ heq
          have hfc := fireConstructor_cycle c args std
          rw [h] at hfc
          rw [hfc, hcd]
    | .deps [] =>
      simp only [resolveStep] at h
      cases h; rfl
    | .deps (d :: rest) =>
      simp only [resolveStep] at h
      split at h
      · cases h
      · rename_i dep hlook
        split at h
        · cases h
        · rename_i hmem
          split at h
          · cases h
          · rename_i u st2 heq2
            split at h
            · rename_i vs2 st4 heq4
              cases h
              have h2 : st2.cycle = d :: st.cycle := by
                simpa using ih _ _ _ _ heq2
              have h4 : st1.cycle = removeKind d st2.cycle := by
                simpa using ih _ _ _ _ heq4
              rw [h4, h2, removeKind_cons_self, removeKind_of_not_mem d st.cycle hmem]
            · cases h

/-- C4 counterexample: ins pushes kind 2 onto the resolution path, the
recursive resolution of it returns with a failure (its dependency kind 3
is missing), and kind 2 is still on the path when ins returns - the path
is not what it was before that resolution started, so removal does not
happen on failure. -/
theorem c4_counterexample :
    c4FailState.cycle = [] ∧
    (ins 5 [⟨2, false⟩] c4FailState).1 =
      .error (.missingDependency ⟨3, false⟩) ∧
    (ins 5 [⟨2, false⟩] c4FailState).2.cycle = [⟨2, false⟩] := by
  refine ⟨rfl, by decide, by decide⟩

/-- C4 amended: a dependency kind pushed onto the resolution path is
removed from the path when the recursive resolution of it returns
successfully - after a resolution that completes without error the path
set is exactly what it was before it started; on a failed resolution the
source returns at once and the pushed kind stays on the path (the whole
assembly aborts, so the stale path is never reused). -/
theorem c4_amended_path_restored_on_success (fuel : Nat) (deps : List Kind)
    (c : ComponentR) (st : St) :
    (∀ vs st1, ins fuel deps st = (.ok vs, st1) → st1.cycle = st.cycle) ∧
    (∀ st1, initializeComponent fuel c st = (none, st1) →
      st1.cycle = st.cycle) := by
  constructor
  · intro vs st1 h
    exact resolveStep_ok_cycle fuel (.deps deps) st vs st1 h
  · intro st1 h
    rw [initializeComponent] at h
    split at h
    · rename_i u s heq
      cases h
      exact resolveStep_ok_cycle fuel (.comp c) st u st1 heq
    · cases h

/-- C4 amended witness: a concrete successful ins run restores the path. -/
theorem c4_witness :
    (ins 3 [⟨1, false⟩] c4OkState).2.cycle = c4OkState.cycle :=
  (c4_amended_path_restored_on_success 3 [⟨1, false⟩] ⟨[], 0, none⟩ c4OkState).1
    [⟨⟨1, false⟩, false, false, false, 7⟩] (ins 3 [⟨1, false⟩] c4OkState).2
    (by decide)

theorem registerOuts_ok_shape (deps : List Kind) (ctor : Nat) :
    ∀ ks m m1, registerOuts deps ctor m ks = .ok m1 →
      keysOf m1 = keysOf m ++ ks ∧ (∀ k ∈ ks, k ∉ keysOf m) ∧ ks.Nodup := by
  intro ks
  induction ks with
  | nil =>
    intro m m1 h
    cases h
    simp
  | cons k rest ih =>
    intro m m1 h
    rw [registerOuts] at h
    split at h
    · cases h
    · rename_i hnone
      obtain ⟨h1, h2, h3⟩ := ih _ _ h
      rw [keysOf_append] at h1
      have hkm : k ∉ keysOf m := by
        rw [← lookupC_eq_none_iff]
        cases hl : lookupC m k
        · rfl
        · rw [hl] at hnone; simp at hnone
      refine ⟨by simpa using h1, ?_, ?_⟩
      · intro k2 hk2
        rcases List.mem_cons.mp hk2 with rfl | hk3
        · exact hkm
        · intro hmem
          exact h2 k2 hk3 (by rw [keysOf_append]; exact List.mem_append_left _ hmem)
      · refine List.nodup_cons.mpr ⟨?_, h3⟩
        intro hkr
        exact h2 k hkr (by rw [keysOf_append]; simp [keysOf])

theorem registerOuts_error_shape (deps : List Kind) (ctor : Nat) :
    ∀ ks m e, registerOuts deps ctor m ks = .error e → ∃ k, e = .duplicating k := by
  intro ks
  induction ks with
  | nil => intro m e h; cases h
  | cons k rest ih =>
    intro m e h
    rw [registerOuts] at h
    split at h
    · cases h; exact ⟨k, rfl⟩
    · exact ih _ _ h

theorem collect_error_shape :
    ∀ (is : List Initializer) m idx e, collectComponents m is idx = .error e →
      ∃ k, e = .duplicating k := by
  intro is
  induction is with
  | nil => intro m idx e h; cases h
  | cons i rest ih =>
    intro m idx e h
    rw [collectComponents] at h
    split at h
    · split at h
      · cases h
      · rename_i heq
        cases h
        exact ih _ _ _ heq
    · split at h
      · rename_i heq
        cases h
        exact registerOuts_error_shape _ _ _ _ _ heq
      · exact ih _ _ _ h

theorem collect_ok_shape :
    ∀ (is : List Initializer) m idx acts m1,
      collectComponents m is idx = .ok (acts, m1) →
      keysOf m1 = keysOf m ++ (is.map outKindsOf).flatten ∧
      (∀ k ∈ (is.map outKindsOf).flatten, k ∉ keysOf m) ∧
      (is.map outKindsOf).flatten.Nodup := by
  intro is
  induction is with
  | nil =>
    intro m idx acts m1 h
    cases h
    simp
  | cons i rest ih =>
    intro m idx acts m1 h
    rw [collectComponents] at h
    split at h
    · rename_i hempty
      have hie : outKindsOf i = [] := List.isEmpty_iff.mp hempty
      split at h
      · rename_i acts' m' heq
        cases h
        obtain ⟨h1, h2, h3⟩ := ih _ _ _ _ heq
        simp only [List.map_cons, hie, List.flatten_cons, List.nil_append]
        exact ⟨h1, h2, h3⟩
      · cases h
    · split at h
      · cases h
      · rename_i m' heq
        obtain ⟨r1, r2, r3⟩ := registerOuts_ok_shape _ _ _ _ _ heq
        obtain ⟨h1, h2, h3⟩ := ih _ _ _ _ h
        rw [r1] at h1 h2
        constructor
        · rw [h1]
          simp [List.flatten]
        constructor
        · intro k hk
          simp only [List.map_cons, List.flatten] at hk
          rcases List.mem_append.mp hk with hk | hk
          · exact r2 k hk
          · intro hm
            exact h2 k hk (List.mem_append_left _ hm)
        · simp only [List.map_cons, List.flatten]
          refine List.nodup_append.mpr ⟨r3, h3, ?_⟩
          intro k hk hk2
          exact h2 k hk2 (List.mem_append_right _ hk)

theorem flatten_nodup_disjoint_at {α : Type} (L : List (List α))
    (h : L.flatten.Nodup) (p q : Nat) (hp : p < L.length) (hq : q < L.length)
    (hne : p ≠ q) (a : α) (hap : a ∈ L[p]) (haq : a ∈ L[q]) : False := by
  obtain ⟨-, hpw⟩ := List.nodup_flatten.mp h
  rcases Nat.lt_or_ge p q with hlt | hge
  · exact (List.pairwise_iff_getElem.mp hpw p q hp hq hlt) hap haq
  · have hlt : q < p := Nat.lt_of_le_of_ne hge (Ne.symm hne)
    exact (List.pairwise_iff_getElem.mp hpw q p hq hp hlt) haq hap

/-- C3: two initializers in the merged list (pre-built values included)
declaring the same product kind make New fail with the duplicate-kind
error, whatever their positions, and the failure is raised during graph
building: no constructor and no zero-output initializer has been invoked
(both instrumentation logs are empty). -/
theorem c3_duplicate_kind (fuel : Nat) (cs : List GoValue) (is : List Initializer)
    (p q : Nat) (K : Kind)
    (hp : p < (mergeComponentsInitializers cs is).length)
    (hq : q < (mergeComponentsInitializers cs is).length)
    (hne : p ≠ q)
    (hKp : K ∈ outKindsOf ((mergeComponentsInitializers cs is).getD p defaultInit))
    (hKq : K ∈ outKindsOf ((mergeComponentsInitializers cs is).getD q defaultInit)) :
    (∃ k, (New fuel cs is).err = some (.duplicating k)) ∧
    (New fuel cs is).final.calls = [] ∧
    (New fuel cs is).final.initCalls = [] := by
  set prog := mergeComponentsInitializers cs is with hprog
  have hgp : prog.getD p defaultInit = prog[p] := by
    rw [List.getD_eq_getElem?_getD, List.getElem?_eq_getElem hp]
    rfl
  have hgq : prog.getD q defaultInit = prog[q] := by
    rw [List.getD_eq_getElem?_getD, List.getElem?_eq_getElem hq]
    rfl
  have hfail : ∀ acts m1,
      collectComponents (initialSt prog).components prog 0 ≠ .ok (acts, m1) := by
    intro acts m1 hok
    obtain ⟨-, -, hnd⟩ := collect_ok_shape prog _ 0 acts m1 hok
    have hlp : p < (prog.map outKindsOf).length := by simpa using hp
    have hlq : q < (prog.map outKindsOf).length := by simpa using hq
    refine flatten_nodup_disjoint_at (prog.map outKindsOf) hnd p q hlp hlq hne K ?_ ?_
    · rw [List.getElem_map]
      rw [hgp] at hKp
      exact hKp
    · rw [List.getElem_map]
      rw [hgq] at hKq
      exact hKq
  rcases hcc : collectComponents (initialSt prog).components prog 0 with e | ⟨acts, m1⟩
  · obtain ⟨k, rfl⟩ := collect_error_shape prog _ 0 e hcc
    have hIC : initializeComponents fuel (initialSt prog) prog =
        (.error (.duplicating k), initialSt prog) := by
      rw [initializeComponents, hcc]
    have hN : New fuel cs is =
        { app := App.emptyApp
          err := some (.duplicating k)
          final := initialSt prog
          shutdownEvents :=
            shutdownLoop (initialSt prog).shutdowners ++ [.cancelRoot] } := by
      rw [New]
      rw [← hprog, hIC]
    rw [hN]
    exact ⟨⟨k, rfl⟩, rfl, rfl⟩
  · exact absurd hcc (hfail acts m1)

/-- C3 witness: a pre-built value of kind 1 and a constructor for kind 1
(positions 0 and 1 of the merged list) make New fail with the
duplicate-kind error before any invocation. -/
theorem c3_witness :
    (∃ k, (New 7 [⟨⟨1, false⟩, false, false, false, 5⟩]
        [⟨[], false, [⟨⟨1, false⟩, false, false, false, 6⟩]⟩]).err =
      some (.duplicating k)) ∧
    (New 7 [⟨⟨1, false⟩, false, false, false, 5⟩]
        [⟨[], false, [⟨⟨1, false⟩, false, false, false, 6⟩]⟩]).final.calls = [] ∧
    (New 7 [⟨⟨1, false⟩, false, false, false, 5⟩]
        [⟨[], false, [⟨⟨1, false⟩, false, false, false, 6⟩]⟩]).final.initCalls = [] :=
  c3_duplicate_kind 7 [⟨⟨1, false⟩, false, false, false, 5⟩]
    [⟨[], false, [⟨⟨1, false⟩, false, false, false, 6⟩]⟩] 0 1 ⟨1, false⟩
    (by decide) (by decide) (by decide) (by decide) (by decide)

/-- C6: whenever New fails, the deferred shutdown orchestrator has run on
the shutdown-capable components collected so far, in strict reverse of
their collection order, ending with the root cancellation, before the
failure is returned. -/
theorem c6_shutdown_on_new_failure (fuel : Nat) (cs : List GoValue)
    (is : List Initializer) (e : AppError) (h : (New fuel cs is).err = some e) :
    (New fuel cs is).shutdownEvents =
      ((New fuel cs is).final.shutdowners.reverse.map fun v =>
        ShutdownEvent.shut v.tag) ++ [ShutdownEvent.cancelRoot] := by
  revert h
  unfold New
  dsimp only
  split
  · intro _
    dsimp only
    rw [shutdownLoop_eq]
  · split
    · intro _
      dsimp only
      rw [shutdownLoop_eq]
    · intro h
      cases h

/-- C6 witness: on the concrete failing assembly the deferred shutdown
ran in reverse order ending with the root cancellation. -/
theorem c6_witness :
    (New 10 [] c6Program).shutdownEvents =
      ((New 10 [] c6Program).final.shutdowners.reverse.map fun v =>
        ShutdownEvent.shut v.tag) ++ [ShutdownEvent.cancelRoot] :=
  c6_shutdown_on_new_failure 10 [] c6Program
    (.goError ⟨⟨9, true⟩, false, false, false, 4⟩) (by decide)

theorem ctxLoop_skips (fuel : Nat) (prog : List Initializer) :
    initializeComponentsLoop fuel [ctxKind] (initialSt prog) = (none, initialSt prog) := by
  simp [initializeComponentsLoop, initialSt, lookupC, List.find?, initializeComponent,
    resolveStep.eq_def, removeKind, ctxKind, ctxValue]

/-- C9: a pre-built component value whose type satisfies the error
interface is classified as a zero-output init rather than a constructor:
it is never registered under its kind (lookup reports not found), and a
non-nil such value makes New fail returning that very value, while a nil
one is silently accepted. -/
theorem c9_prebuilt_error_value (fuel : Nat) (v : GoValue)
    (he : v.type.isErr = true) :
    ((New fuel [v] []).app.retrieveC v.type).1 = false ∧
    (v.isNil = false → (New fuel [v] []).err = some (.goError v)) ∧
    (v.isNil = true → (New fuel [v] []).err = none) := by
  have hout : outKindsOf (mkComponentConstructor v) = [] := by
    simp [outKindsOf, mkComponentConstructor, he]
  have hprog : mergeComponentsInitializers [v] [] = [mkComponentConstructor v] := rfl
  have hcc : collectComponents (initialSt [mkComponentConstructor v]).components
      [mkComponentConstructor v] 0 =
      .ok ([⟨[], 0⟩], (initialSt [mkComponentConstructor v]).components) := by
    rw [collectComponents]
    simp only [hout, List.isEmpty_nil, if_true]
    rw [collectComponents]
    simp [depsOf, mkComponentConstructor]
  have hIC : initializeComponents fuel (initialSt [mkComponentConstructor v])
      [mkComponentConstructor v] =
      (.ok [⟨[], 0⟩], initialSt [mkComponentConstructor v]) := by
    rw [initializeComponents, hcc]
    dsimp only
    have he1 : { initialSt [mkComponentConstructor v] with
        components := (initialSt [mkComponentConstructor v]).components } =
        initialSt [mkComponentConstructor v] := rfl
    rw [he1]
    have hkeys : keysOf (initialSt [mkComponentConstructor v]).components = [ctxKind] := rfl
    rw [hkeys, ctxLoop_skips]
  have hvne : ¬ (ctxKind = v.type) := by
    intro hh
    rw [← hh] at he
    exact absurd he (by decide)
  have hrets : ((initialSt [mkComponentConstructor v]).prog.getD 0 defaultInit).rets = [v] := by
    simp [initialSt, List.getD, mkComponentConstructor]
  by_cases hnil : v.isNil
  · have hinv : invokeInits (initialSt [mkComponentConstructor v]) [⟨[], 0⟩] =
        (none, { initialSt [mkComponentConstructor v] with initCalls := [(0, 0)] }) := by
      rw [invokeInits]
      have h1 : insOfInit (initialSt [mkComponentConstructor v]) [] = .ok [] := rfl
      rw [h1]
      dsimp only
      rw [hrets]
      simp [hnil, invokeInits, initialSt]
    have hN : New fuel [v] [] =
        { app := ⟨(initialSt [mkComponentConstructor v]).components, [], []⟩
          err := none
          final := { initialSt [mkComponentConstructor v] with initCalls := [(0, 0)] }
          shutdownEvents := [] } := by
      rw [New]
      rw [hprog, hIC]
      dsimp only
      rw [hinv]
      rfl
    rw [hN]
    refine ⟨?_, ?_, ?_⟩
    · dsimp only [App.retrieveC]
      have hl : lookupC (initialSt [mkComponentConstructor v]).components v.type = none := by
        simp [initialSt, lookupC, List.find?, hvne]
      rw [hl]
    · intro hn
      rw [hnil] at hn
      cases hn
    · intro _
      rfl
  · have hnil2 : v.isNil = false := by
      cases hv : v.isNil
      · rfl
      · exact absurd hv hnil
    have hinv : invokeInits (initialSt [mkComponentConstructor v]) [⟨[], 0⟩] =
        (some (.goError v),
          { initialSt [mkComponentConstructor v] with initCalls := [(0, 0)] }) := by
      rw [invokeInits]
      have h1 : insOfInit (initialSt [mkComponentConstructor v]) [] = .ok [] := rfl
      rw [h1]
      dsimp only
      rw [hrets]
      simp [hnil2, initialSt]
    have hN : New fuel [v] [] =
        { app := App.emptyApp
          err := some (.goError v)
          final := { initialSt [mkComponentConstructor v] with initCalls := [(0, 0)] }
          shutdownEvents :=
            shutdownLoop ({ initialSt [mkComponentConstructor v] with
              initCalls := [(0, 0)] } : St).shutdowners ++ [.cancelRoot] } := by
      rw [New]
      rw [hprog, hIC]
      dsimp only
      rw [hinv]
    rw [hN]
    refine ⟨rfl, ?_, ?_⟩
    · intro _
      rfl
    · intro hn
      rw [hnil2] at hn
      cases hn

/-- C9 witness: a concrete non-nil pre-built error value of kind 9. -/
theorem c9_witness :
    ((New 4 [⟨⟨9, true⟩, false, false, false, 42⟩] []).app.retrieveC
        (⟨⟨9, true⟩, false, false, false, 42⟩ : GoValue).type).1 = false ∧
    ((⟨⟨9, true⟩, false, false, false, 42⟩ : GoValue).isNil = false →
      (New 4 [⟨⟨9, true⟩, false, false, false, 42⟩] []).err =
        some (.goError ⟨⟨9, true⟩, false, false, false, 42⟩)) ∧
    ((⟨⟨9, true⟩, false, false, false, 42⟩ : GoValue).isNil = true →
      (New 4 [⟨⟨9, true⟩, false, false, false, 42⟩] []).err = none) :=
  c9_prebuilt_error_value 4 ⟨⟨9, true⟩, false, false, false, 42⟩ (by decide)

theorem lookupC_singleton (k0 : Kind) (c0 : ComponentR) (k : Kind) (c : ComponentR)
    (h : lookupC [(k0, c0)] k = some c) : k = k0 ∧ c = c0 := by
  by_cases hk : k0 = k
  · simp [lookupC, List.find?, hk] at h
    exact ⟨hk.symm, h.symm⟩
  · simp [lookupC, List.find?, hk] at h

theorem find?_map_keypres (f : Kind × ComponentR → Kind × ComponentR)
    (hf : ∀ e, (f e).1 = e.1) (p : Kind) (m : CMap) :
    (m.map f).find? (fun e => decide (e.1 = p)) =
      (m.find? fun e => decide (e.1 = p)).map f := by
  induction m with
  | nil => rfl
  | cons e rest ih =>
    simp only [List.map_cons, List.find?]
    rw [hf e]
    cases hd : decide (e.1 = p)
    · simpa using ih
    · simp

theorem lookupC_setValue_self (m : CMap) (k : Kind) (v : GoValue) :
    lookupC (setValue m k v) k =
      (lookupC m k).map fun c => { c with value := some v } := by
  rw [lookupC, setValue, find?_map_keypres]
  · cases h : m.find? fun e => decide (e.1 = k)
    · simp [lookupC, h]
    · rename_i e
      have he : e.1 = k := by
        have := List.find?_some h
        simpa using this
      simp [lookupC, h, he]
  · intro e
    dsimp only
    split <;> rfl

theorem lookupC_setValue_ne (m : CMap) (k : Kind) (v : GoValue) (k' : Kind)
    (hne : k' ≠ k) :
    lookupC (setValue m k v) k' = lookupC m k' := by
  rw [lookupC, setValue, find?_map_keypres]
  · cases h : m.find? fun e => decide (e.1 = k')
    · simp [lookupC, h]
    · rename_i e
      have he : e.1 = k' := by
        have := List.find?_some h
        simpa using this
      have hek : ¬ (e.1 = k) := by
        rw [he]
        exact hne
      simp [lookupC, h, hek]
  · intro e
    dsimp only
    split <;> rfl

theorem resolveStep_deps_ok_length (fuel : Nat) :
    ∀ ds st vs st1, resolveStep fuel (.deps ds) st = (.ok vs, st1) →
      vs.length = ds.length := by
  induction fuel with
  | zero =>
    intro ds st vs st1 h
    match ds with
    | [] => rw [resolveStep] at h; cases h; rfl
    | d :: rest => rw [resolveStep] at h; cases h
  | succ f ih =>
    intro ds st vs st1 h
    match ds with
    | [] => rw [resolveStep] at h; cases h; rfl
    | d :: rest =>
      simp only [resolveStep] at h
      split at h
      · cases h
      · split at h
        · cases h
        · split at h
          · cases h
          · split at h
            · rename_i vs2 st4 heq4
              cases h
              simp [ih rest _ _ _ heq4]
            · cases h

theorem storeOut_prog (st : St) (out : GoValue) : (storeOut st out).prog = st.prog := by
  rw [storeOut]
  dsimp only
  split <;> split <;> rfl

theorem storeOut_calls (st : St) (out : GoValue) :
    (storeOut st out).calls = st.calls := by
  rw [storeOut]
  dsimp only
  split <;> split <;> rfl

theorem storeOut_components (st : St) (out : GoValue) :
    (storeOut st out).components = setValue st.components out.type out := by
  rw [storeOut]
  dsimp only
  split <;> split <;> rfl

theorem storeOuts_prog (outs : List GoValue) (st : St) :
    (storeOuts outs st).prog = st.prog := by
  induction outs generalizing st with
  | nil => rfl
  | cons o rest ih =>
    show (storeOuts rest (storeOut st o)).prog = st.prog
    rw [ih, storeOut_prog]

theorem storeOuts_calls (outs : List GoValue) (st : St) :
    (storeOuts outs st).calls = st.calls := by
  induction outs generalizing st with
  | nil => rfl
  | cons o rest ih =>
    show (storeOuts rest (storeOut st o)).calls = st.calls
    rw [ih, storeOut_calls]

theorem depsMatch_storeOut (st : St) (out : GoValue) (h : depsMatch st) :
    depsMatch (storeOut st out) := by
  intro k c hl hv
  rw [storeOut_components] at hl
  rw [storeOut_prog]
  by_cases hk : k = out.type
  · subst hk
    rw [lookupC_setValue_self] at hl
    cases hl0 : lookupC st.components out.type
    · rw [hl0] at hl
      cases hl
    · rw [hl0] at hl
      cases hl
      cases hv
  · rw [lookupC_setValue_ne _ _ _ _ hk] at hl
    exact h k c hl hv

theorem depsMatch_storeOuts (outs : List GoValue) (st : St) (h : depsMatch st) :
    depsMatch (storeOuts outs st) := by
  induction outs generalizing st with
  | nil => exact h
  | cons o rest ih =>
    show depsMatch (storeOuts rest (storeOut st o))
    exact ih _ (depsMatch_storeOut st o h)

theorem fireConstructor_shape (c : ComponentR) (args : List GoValue) (st : St)
    (hdm : depsMatch st) :
    (fireConstructor c args st).2.prog = st.prog ∧
    depsMatch (fireConstructor c args st).2 ∧
    (fireConstructor c args st).2.calls =
      st.calls ++ [(c.constructor, args.length)] := by
  have hdm1 : depsMatch
      { st with calls := st.calls ++ [(c.constructor, args.length)] } := hdm
  rw [fireConstructor]
  split
  · exact ⟨rfl, hdm1, rfl⟩
  · split
    · split
      · refine ⟨?_, depsMatch_storeOuts _ _ hdm1, ?_⟩
        · rw [storeOuts_prog]
        · rw [storeOuts_calls]
      · exact ⟨rfl, hdm1, rfl⟩
    · refine ⟨?_, depsMatch_storeOuts _ _ hdm1, ?_⟩
      · rw [storeOuts_prog]
      · rw [storeOuts_calls]

theorem resolveStep_shape (fuel : Nat) :
    ∀ job st, depsMatch st →
      (∀ c, job = .comp c → c.value = none →
        c.dependencies = depsOf (st.prog.getD c.constructor defaultInit)) →
      (resolveStep fuel job st).2.prog = st.prog ∧
      depsMatch (resolveStep fuel job st).2 ∧
      ∃ l, (resolveStep fuel job st).2.calls = st.calls ++ l ∧
        ∀ pn ∈ l, pn.2 = (depsOf (st.prog.getD pn.1 defaultInit)).length := by
  induction fuel with
  | zero =>
    intro job st hdm hjob
    rcases hres : resolveStep 0 job st with ⟨res, stR⟩
    dsimp only
    have triv : stR = st →
        stR.prog = st.prog ∧ depsMatch stR ∧
        ∃ l, stR.calls = st.calls ++ l ∧
          ∀ pn ∈ l, pn.2 = (depsOf (st.prog.getD pn.1 defaultInit)).length := by
      rintro rfl
      exact ⟨rfl, hdm, [], by simp, by simp⟩
    match job with
    | .comp c =>
      rw [resolveStep] at hres
      split at hres
      · cases hres
        exact triv rfl
      · cases hres
        exact triv rfl
    | .deps [] =>
      rw [resolveStep] at hres
      cases hres
      exact triv rfl
    | .deps (d :: rest) =>
      rw [resolveStep] at hres
      cases hres
      exact triv rfl
  | succ f ih =>
    intro job st hdm hjob
    rcases hres : resolveStep (f + 1) job st with ⟨res, stR⟩
    dsimp only
    match job with
    | .comp c =>
      simp only [resolveStep] at hres
      split at hres
      · cases hres
        exact ⟨rfl, hdm, [], by simp, by simp⟩
      · rename_i hv
        split at hres
        · rename_i e st1 heq
          cases hres
          have hsh := ih (.deps c.dependencies) st hdm (by intro c2 hc2; cases hc2)
          rw [heq] at hsh
          dsimp only at hsh
          exact hsh
        · rename_i args st1 heq
          have hvn : c.value = none := by
            cases hcv : c.value
            · rfl
            · rw [hcv] at hv
              simp at hv
          have hsh := ih (.deps c.dependencies) st hdm (by intro c2 hc2; cases hc2)
          rw [heq] at hsh
          dsimp only at hsh
          obtain ⟨hprog1, hdm1, l1, hcalls1, hl1⟩ := hsh
          have hfire := fireConstructor_shape c args st1 hdm1
          rw [hres] at hfire
          dsimp only at hfire
          obtain ⟨hfp, hfdm, hfc⟩ := hfire
          have hlen : args.length = c.dependencies.length :=
            resolveStep_deps_ok_length f c.dependencies st args st1 heq
          refine ⟨by rw [hfp, hprog1], hfdm,
            l1 ++ [(c.constructor, args.length)], ?_, ?_⟩
          · rw [hfc, hcalls1, List.append_assoc]
          · intro pn hpn
            rcases List.mem_append.mp hpn with hpn | hpn
            · exact hl1 pn hpn
            · rcases List.mem_singleton.mp hpn with rfl
              dsimp only
              rw [hlen, hjob c rfl hvn]
    | .deps [] =>
      rw [resolveStep] at hres
      cases hres
      exact ⟨rfl, hdm, [], by simp, by simp⟩
    | .deps (d :: rest) =>
      simp only [resolveStep] at hres
      split at hres
      · cases hres
        exact ⟨rfl, hdm, [], by simp, by simp⟩
      · rename_i dep hlook
        split at hres
        · cases hres
          exact ⟨rfl, hdm, [], by simp, by simp⟩
        · rename_i hmem
          split at hres
          · rename_i e st2 heq2
            cases hres
            have hsh := ih (.comp dep) { st with cycle := d :: st.cycle } hdm
              (by
                intro c2 hc2 hv2
                cases hc2
                exact hdm d dep hlook hv2)
            rw [heq2] at hsh
            dsimp only at hsh
            exact hsh
          · rename_i u st2 heq2
            have hsh := ih (.comp dep) { st with cycle := d :: st.cycle } hdm
              (by
                intro c2 hc2 hv2
                cases hc2
                exact hdm d dep hlook hv2)
            rw [heq2] at hsh
            dsimp only at hsh
            obtain ⟨hprog2, hdm2, l2, hcalls2, hl2⟩ := hsh
            split at hres
            · rename_i vs st4 heq4
              cases hres
              have hsh3 := ih (.deps rest) { st2 with cycle := removeKind d st2.cycle }
                hdm2 (by intro c2 hc2; cases hc2)
              rw [heq4] at hsh3
              dsimp only at hsh3
              obtain ⟨hprog4, hdm4, l3, hcalls3, hl3⟩ := hsh3
              refine ⟨by rw [hprog4, hprog2], hdm4, l2 ++ l3, ?_, ?_⟩
              · rw [hcalls3, hcalls2, List.append_assoc]
              · intro pn hpn
                rcases List.mem_append.mp hpn with hpn | hpn
                · exact hl2 pn hpn
                · rw [← hprog2]
                  exact hl3 pn hpn
            · rename_i e st4 heq4
              cases hres
              have hsh3 := ih (.deps rest) { st2 with cycle := removeKind d st2.cycle }
                hdm2 (by intro c2 hc2; cases hc2)
              rw [heq4] at hsh3
              dsimp only at hsh3
              obtain ⟨hprog4, hdm4, l3, hcalls3, hl3⟩ := hsh3
              refine ⟨by rw [hprog4, hprog2], hdm4, l2 ++ l3, ?_, ?_⟩
              · rw [hcalls3, hcalls2, List.append_assoc]
              · intro pn hpn
                rcases List.mem_append.mp hpn with hpn | hpn
                · exact hl2 pn hpn
                · rw [← hprog2]
                  exact hl3 pn hpn

theorem initializeComponent_snd (fuel : Nat) (c : ComponentR) (st : St) :
    (initializeComponent fuel c st).2 = (resolveStep fuel (.comp c) st).2 := by
  rw [initializeComponent]
  rcases h : resolveStep fuel (.comp c) st with ⟨r, s⟩
  match r with
  | .ok u => rfl
  | .error e => rfl

theorem initializeComponentsLoop_shape (fuel : Nat) :
    ∀ (order : List Kind) (st : St), depsMatch st →
      (initializeComponentsLoop fuel order st).2.prog = st.prog ∧
      depsMatch (initializeComponentsLoop fuel order st).2 ∧
      ∃ l, (initializeComponentsLoop fuel order st).2.calls = st.calls ++ l ∧
        ∀ pn ∈ l, pn.2 = (depsOf (st.prog.getD pn.1 defaultInit)).length := by
  intro order
  induction order with
  | nil =>
    intro st hdm
    exact ⟨rfl, hdm, [], by simp [initializeComponentsLoop], by simp⟩
  | cons k rest ih =>
    intro st hdm
    rcases hres : initializeComponentsLoop fuel (k :: rest) st with ⟨res, stR⟩
    dsimp only
    simp only [initializeComponentsLoop] at hres
    split at hres
    · rename_i hlook
      have hsh := ih { { st with cycle := k :: st.cycle } with
        cycle := removeKind k ({ st with cycle := k :: st.cycle } : St).cycle } hdm
      rw [hres] at hsh
      dsimp only at hsh
      exact hsh
    · rename_i c hlook
      have hjob : ∀ c2, Job.comp c = Job.comp c2 → c2.value = none →
          c2.dependencies =
            depsOf (({ st with cycle := k :: st.cycle } : St).prog.getD
              c2.constructor defaultInit) := by
        intro c2 hc2 hv2
        cases hc2
        exact hdm k c hlook hv2
      have hrs := resolveStep_shape fuel (.comp c) { st with cycle := k :: st.cycle }
        hdm hjob
      obtain ⟨hprog2, hdm2, l2, hcalls2, hl2⟩ := hrs
      split at hres
      · rename_i e st2 heq
        cases hres
        have hsnd : (resolveStep fuel (.comp c)
            { st with cycle := k :: st.cycle }).2 = stR := by
          rw [← initializeComponent_snd, heq]
        rw [hsnd] at hprog2 hdm2 hcalls2
        dsimp only at hprog2 hcalls2 hl2
        exact ⟨hprog2, hdm2, l2, hcalls2, hl2⟩
      · rename_i st2 heq
        have hsnd : (resolveStep fuel (.comp c)
            { st with cycle := k :: st.cycle }).2 = st2 := by
          rw [← initializeComponent_snd, heq]
        rw [hsnd] at hprog2 hdm2 hcalls2
        dsimp only at hprog2 hcalls2 hl2
        have hsh := ih { st2 with cycle := removeKind k st2.cycle } hdm2
        rw [hres] at hsh
        dsimp only at hsh
        obtain ⟨hprog4, hdm4, l3, hcalls3, hl3⟩ := hsh
        refine ⟨by rw [hprog4, hprog2], hdm4, l2 ++ l3, ?_, ?_⟩
        · rw [hcalls3, hcalls2, List.append_assoc]
        · intro pn hpn
          rcases List.mem_append.mp hpn with hpn | hpn
          · exact hl2 pn hpn
          · rw [← hprog2]
            exact hl3 pn hpn

theorem invokeInits_calls :
    ∀ (inits : List InitFunc) (st : St), (invokeInits st inits).2.calls = st.calls := by
  intro inits
  induction inits with
  | nil => intro st; rfl
  | cons i rest ih =>
    intro st
    rw [invokeInits]
    split
    · rfl
    · dsimp only
      split
      · exact ih _
      · split
        · exact ih _
        · rfl

theorem registerOuts_records (deps : List Kind) (ctor : Nat) :
    ∀ ks m m1, registerOuts deps ctor m ks = .ok m1 →
      ∀ k c, lookupC m1 k = some c →
        lookupC m k = some c ∨ (c = ⟨deps, ctor, none⟩ ∧ k ∈ ks) := by
  intro ks
  induction ks with
  | nil =>
    intro m m1 h k c hl
    cases h
    exact Or.inl hl
  | cons k0 rest ih =>
    intro m m1 h k c hl
    rw [registerOuts] at h
    split at h
    · cases h
    · rcases ih _ _ h k c hl with hcase | ⟨rfl, hk⟩
      · rw [lookupC_append] at hcase
        split at hcase
        · rename_i c2 hc2
          cases hcase
          exact Or.inl hc2
        · obtain ⟨hk0, hc0⟩ := lookupC_singleton _ _ _ _ hcase
          exact Or.inr ⟨hc0, by rw [hk0]; exact List.mem_cons_self _ _⟩
      · exact Or.inr ⟨rfl, List.mem_cons_of_mem _ hk⟩

theorem collect_records :
    ∀ (is : List Initializer) m idx acts m1,
      collectComponents m is idx = .ok (acts, m1) →
      ∀ k c, lookupC m1 k = some c →
        lookupC m k = some c ∨
        ∃ j, j < is.length ∧
          c = ⟨depsOf (is.getD j defaultInit), idx + j, none⟩ ∧
          k ∈ outKindsOf (is.getD j defaultInit) := by
  intro is
  induction is with
  | nil =>
    intro m idx acts m1 h k c hl
    cases h
    exact Or.inl hl
  | cons i rest ih =>
    intro m idx acts m1 h k c hl
    rw [collectComponents] at h
    split at h
    · split at h
      · rename_i acts2 m2 heq
        cases h
        rcases ih _ _ _ _ heq k c hl with hcase | ⟨j, hj, hc, hk⟩
        · exact Or.inl hcase
        · refine Or.inr ⟨j + 1, by simpa using Nat.succ_lt_succ hj, ?_, ?_⟩
          · rw [List.getD_cons_succ]
            rw [hc]
            have : idx + (j + 1) = idx + 1 + j := by omega
            rw [this]
          · rw [List.getD_cons_succ]
            exact hk
      · cases h
    · split at h
      · cases h
      · rename_i m2 heq
        rcases ih _ _ _ _ h k c hl with hcase | ⟨j, hj, hc, hk⟩
        · rcases registerOuts_records _ _ _ _ _ heq k c hcase with hcase2 | ⟨hc0, hk0⟩
          · exact Or.inl hcase2
          · refine Or.inr ⟨0, by simp, ?_, ?_⟩
            · rw [List.getD_cons_zero, hc0]
              simp
            · rw [List.getD_cons_zero]
              exact hk0
        · refine Or.inr ⟨j + 1, by simpa using Nat.succ_lt_succ hj, ?_, ?_⟩
          · rw [List.getD_cons_succ, hc]
            have : idx + (j + 1) = idx + 1 + j := by omega
            rw [this]
          · rw [List.getD_cons_succ]
            exact hk

theorem New_final_calls (fuel : Nat) (cs : List GoValue) (is : List Initializer) :
    (New fuel cs is).final.calls =
      (initializeComponents fuel (initialSt (mergeComponentsInitializers cs is))
        (mergeComponentsInitializers cs is)).2.calls := by
  rw [New]
  rcases h1 : initializeComponents fuel (initialSt (mergeComponentsInitializers cs is))
      (mergeComponentsInitializers cs is) with ⟨r, stI⟩
  cases r with
  | error e => rfl
  | ok inits =>
    dsimp only
    rcases h2 : invokeInits stI inits with ⟨r2, stJ⟩
    have hpres := invokeInits_calls inits stI
    rw [h2] at hpres
    dsimp only at hpres
    cases r2 with
    | none => exact hpres
    | some e => exact hpres

theorem initializeComponents_calls_shape (fuel : Nat) (prog : List Initializer) :
    ∀ pn ∈ (initializeComponents fuel (initialSt prog) prog).2.calls,
      pn.2 = (depsOf (prog.getD pn.1 defaultInit)).length := by
  rw [initializeComponents]
  rcases hcc : collectComponents (initialSt prog).components prog 0 with e | ⟨acts, m⟩
  · intro pn hpn
    cases hpn
  · dsimp only
    have hdm : depsMatch { initialSt prog with components := m } := by
      intro k c hl hvn
      rcases collect_records prog _ 0 acts m hcc k c hl with hcase | ⟨j, hj, hc, hk⟩
      · obtain ⟨hk0, hc0⟩ := lookupC_singleton _ _ _ _ hcase
        rw [hc0] at hvn
        cases hvn
      · rw [hc]
        simp only [initialSt, Nat.zero_add]
    obtain ⟨hprogL, hdmL, l, hcallsL, hl⟩ :=
      initializeComponentsLoop_shape fuel (keysOf m) { initialSt prog with components := m } hdm
    rcases hres : initializeComponentsLoop fuel (keysOf m)
        { initialSt prog with components := m } with ⟨res, stL⟩
    rw [hres] at hprogL hcallsL
    dsimp only at hprogL hcallsL hl
    simp only [initialSt] at hcallsL hl
    cases res with
    | some e =>
      dsimp only
      intro pn hpn
      rw [hcallsL] at hpn
      simp only [List.nil_append] at hpn
      exact hl pn hpn
    | none =>
      dsimp only
      intro pn hpn
      rw [hcallsL] at hpn
      simp only [List.nil_append] at hpn
      exact hl pn hpn

/-- C8: a trailing variadic parameter of a constructor is not recorded as
a dependency during graph building (the registered dependency list is the
parameter list without its final variadic entry), and every invocation of
that constructor during resolution passes exactly one argument per
non-variadic parameter - nothing is ever passed in the variadic position. -/
theorem c8_variadic_not_dependency (fuel : Nat) (cs : List GoValue)
    (is : List Initializer) (p : Nat)
    (_hp : p < (mergeComponentsInitializers cs is).length)
    (hv : ((mergeComponentsInitializers cs is).getD p defaultInit).variadic = true) :
    (∀ acts m k c,
      collectComponents (initialSt (mergeComponentsInitializers cs is)).components
        (mergeComponentsInitializers cs is) 0 = .ok (acts, m) →
      lookupC m k = some c → c.value = none → c.constructor = p →
      c.dependencies =
        ((mergeComponentsInitializers cs is).getD p defaultInit).inTypes.dropLast) ∧
    (∀ n, (p, n) ∈ (New fuel cs is).final.calls →
      n = ((mergeComponentsInitializers cs is).getD p
        defaultInit).inTypes.dropLast.length) := by
  have hdeps : depsOf ((mergeComponentsInitializers cs is).getD p defaultInit) =
      ((mergeComponentsInitializers cs is).getD p defaultInit).inTypes.dropLast := by
    rw [depsOf, if_pos hv]
  constructor
  · intro acts m k c hcc hl hvn hctor
    rcases collect_records (mergeComponentsInitializers cs is) _ 0 acts m hcc k c hl
        with hcase | ⟨j, hj, hc, hk⟩
    · obtain ⟨hk0, hc0⟩ := lookupC_singleton _ _ _ _ hcase
      rw [hc0] at hvn
      cases hvn
    · have hj2 : j = p := by
        rw [hc] at hctor
        dsimp only at hctor
        omega
      rw [hc]
      dsimp only
      rw [hj2, hdeps]
  · intro n hmem
    rw [New_final_calls] at hmem
    have := initializeComponents_calls_shape fuel (mergeComponentsInitializers cs is)
      (p, n) hmem
    dsimp only at this
    rw [this, hdeps]

set_option maxHeartbeats 1600000 in
/-- C8 witness: the variadic constructor at position 1 was invoked with
exactly one argument (for its single non-variadic parameter). -/
theorem c8_witness :
    (1, 1) ∈ (New 3 [] c8Program).final.calls ∧
    1 = ((mergeComponentsInitializers [] c8Program).getD 1
      defaultInit).inTypes.dropLast.length := by
  have hc : (New 3 [] c8Program).final.calls = [(0, 0), (1, 1)] := by decide
  have hmem : (1, 1) ∈ (New 3 [] c8Program).final.calls := by
    rw [hc]
    decide
  exact ⟨hmem,
    (c8_variadic_not_dependency 3 [] c8Program 1 (by decide) (by decide)).2 1 hmem⟩

theorem stepMono_id (st : St) : StepMono st st :=
  ⟨rfl, rfl, fun _ c h => ⟨c, h, rfl, rfl, fun hv => hv⟩⟩

theorem StepMono.trans (st1 st2 st3 : St) (a : StepMono st1 st2)
    (b : StepMono st2 st3) : StepMono st1 st3 := by
  refine ⟨b.progEq.trans a.progEq, b.keysEq.trans a.keysEq, ?_⟩
  intro k c h
  obtain ⟨c2, h2, hc2, hd2, hv2⟩ := a.recPres k c h
  obtain ⟨c3, h3, hc3, hd3, hv3⟩ := b.recPres k c2 h2
  exact ⟨c3, h3, hc3.trans hc2, hd3.trans hd2, fun hv => hv3 (hv2 hv)⟩

theorem StepMono.valued {st st1 : St} (h : StepMono st st1) (k : Kind)
    (hv : valuedAt st k) : valuedAt st1 k := by
  obtain ⟨c, hl, hs⟩ := hv
  obtain ⟨c1, h1, -, -, hv1⟩ := h.recPres k c hl
  exact ⟨c1, h1, hv1 hs⟩

theorem StepMono.back {st st1 : St} (h : StepMono st st1) (k : Kind)
    (c1 : ComponentR) (hl1 : lookupC st1.components k = some c1) :
    ∃ c, lookupC st.components k = some c ∧
      c1.constructor = c.constructor ∧ c1.dependencies = c.dependencies := by
  have hk1 : k ∈ keysOf st1.components := by
    rw [← lookupC_isSome_iff_mem, hl1]
    rfl
  have hk : k ∈ keysOf st.components := by
    rw [← h.keysEq]
    exact hk1
  rw [← lookupC_isSome_iff_mem] at hk
  obtain ⟨c, hc⟩ := Option.isSome_iff_exists.mp hk
  obtain ⟨c1', hl1', hctor, hdeps, -⟩ := h.recPres k c hc
  rw [hl1] at hl1'
  cases hl1'
  exact ⟨c, hc, hctor, hdeps⟩

theorem keysOf_setValue (m : CMap) (k : Kind) (v : GoValue) :
    keysOf (setValue m k v) = keysOf m := by
  rw [setValue, keysOf, List.map_map, keysOf]
  congr 1
  funext e
  dsimp only [Function.comp]
  split <;> rfl

theorem storeOuts_components_keys (outs : List GoValue) (st : St) :
    keysOf (storeOuts outs st).components = keysOf st.components := by
  induction outs generalizing st with
  | nil => rfl
  | cons o rest ih =>
    show keysOf (storeOuts rest (storeOut st o)).components = _
    rw [ih, storeOut_components, keysOf_setValue]

theorem storeOuts_lookup_not_mem (outs : List GoValue) (st : St) (k : Kind)
    (hk : ¬ k ∈ outs.map GoValue.type) :
    lookupC (storeOuts outs st).components k = lookupC st.components k := by
  induction outs generalizing st with
  | nil => rfl
  | cons o rest ih =>
    have hk1 : k ≠ o.type := by
      intro hh
      exact hk (by rw [hh]; exact List.mem_cons_self _ _)
    have hk2 : ¬ k ∈ rest.map GoValue.type := fun hh =>
      hk (List.mem_cons_of_mem _ hh)
    show lookupC (storeOuts rest (storeOut st o)).components k = _
    rw [ih _ hk2, storeOut_components, lookupC_setValue_ne _ _ _ _ hk1]

theorem valuedAt_storeOut (st : St) (o : GoValue) (k : Kind)
    (h : valuedAt st k) : valuedAt (storeOut st o) k := by
  obtain ⟨c, hl, hs⟩ := h
  by_cases hk : k = o.type
  · subst hk
    refine ⟨{ c with value := some o }, ?_, rfl⟩
    rw [storeOut_components, lookupC_setValue_self, hl]
    rfl
  · refine ⟨c, ?_, hs⟩
    rw [storeOut_components, lookupC_setValue_ne _ _ _ _ hk]
    exact hl

theorem valuedAt_storeOuts (outs : List GoValue) (st : St) (k : Kind)
    (h : valuedAt st k) : valuedAt (storeOuts outs st) k := by
  induction outs generalizing st with
  | nil => exact h
  | cons o rest ih =>
    show valuedAt (storeOuts rest (storeOut st o)) k
    exact ih _ (valuedAt_storeOut st o k h)

theorem storeOut_valued_self (st : St) (o : GoValue)
    (hp : (lookupC st.components o.type).isSome = true) :
    valuedAt (storeOut st o) o.type := by
  obtain ⟨c, hc⟩ := Option.isSome_iff_exists.mp hp
  refine ⟨{ c with value := some o }, ?_, rfl⟩
  rw [storeOut_components, lookupC_setValue_self, hc]
  rfl

theorem storeOuts_valued (outs : List GoValue) (st : St) (k : Kind)
    (hk : k ∈ outs.map GoValue.type)
    (hp : (lookupC st.components k).isSome = true) :
    valuedAt (storeOuts outs st) k := by
  induction outs generalizing st with
  | nil => cases hk
  | cons o rest ih =>
    show valuedAt (storeOuts rest (storeOut st o)) k
    by_cases hko : k = o.type
    · subst hko
      exact valuedAt_storeOuts rest _ o.type (storeOut_valued_self st o hp)
    · have hkr : k ∈ rest.map GoValue.type := by
        rcases List.mem_cons.mp hk with h | h
        · exact absurd h hko
        · exact h
      apply ih _ hkr
      rw [storeOut_components, lookupC_setValue_ne _ _ _ _ hko]
      exact hp

theorem storeOut_statics (st : St) (o : GoValue) (k : Kind) (c : ComponentR)
    (h : lookupC st.components k = some c) :
    ∃ c1, lookupC (storeOut st o).components k = some c1 ∧
      c1.constructor = c.constructor ∧ c1.dependencies = c.dependencies ∧
      (c.value.isSome = true → c1.value.isSome = true) := by
  by_cases hk : k = o.type
  · subst hk
    refine ⟨{ c with value := some o }, ?_, rfl, rfl, fun _ => rfl⟩
    rw [storeOut_components, lookupC_setValue_self, h]
    rfl
  · refine ⟨c, ?_, rfl, rfl, fun hv => hv⟩
    rw [storeOut_components, lookupC_setValue_ne _ _ _ _ hk]
    exact h

theorem stepMono_storeOut (st : St) (o : GoValue) :
    StepMono st (storeOut st o) :=
  ⟨storeOut_prog st o, by rw [storeOut_components, keysOf_setValue],
    fun k c h => storeOut_statics st o k c h⟩

theorem stepMono_storeOuts (outs : List GoValue) (st : St) :
    StepMono st (storeOuts outs st) := by
  induction outs generalizing st with
  | nil => exact stepMono_id st
  | cons o rest ih =>
    show StepMono st (storeOuts rest (storeOut st o))
    exact StepMono.trans _ _ _ (stepMono_storeOut st o) (ih _)

theorem storeOuts_unresolved (outs : List GoValue) (st : St) (k : Kind)
    (c1 : ComponentR)
    (h : lookupC (storeOuts outs st).components k = some c1)
    (hv : c1.value = none) : lookupC st.components k = some c1 := by
  by_cases hk : k ∈ outs.map GoValue.type
  · exfalso
    have hp : (lookupC st.components k).isSome = true := by
      rw [lookupC_isSome_iff_mem, ← storeOuts_components_keys outs st,
        ← lookupC_isSome_iff_mem, h]
      rfl
    obtain ⟨c2, hl2, hs2⟩ := storeOuts_valued outs st k hk hp
    rw [h] at hl2
    cases hl2
    rw [hv] at hs2
    cases hs2
  · rw [storeOuts_lookup_not_mem _ _ _ hk] at h
    exact h

theorem getLast?_map_type :
    ∀ (l : List GoValue), (l.map GoValue.type).getLast? = l.getLast?.map GoValue.type := by
  intro l
  induction l with
  | nil => rfl
  | cons a t ih =>
    cases t with
    | nil => rfl
    | cons b t2 =>
      rw [List.map_cons, List.getLast?_cons_cons, List.map_cons] at *
      rw [List.getLast?_cons_cons]
      exact ih

theorem dropLast_map_type :
    ∀ (l : List GoValue), (l.map GoValue.type).dropLast = l.dropLast.map GoValue.type := by
  intro l
  induction l with
  | nil => rfl
  | cons a t ih =>
    cases t with
    | nil => rfl
    | cons b t2 =>
      simp only [List.map_cons]
      rw [List.dropLast_cons₂, List.dropLast_cons₂, List.map_cons]
      congr 1

theorem outKindsOf_eq_of_err (i : Initializer) (last : GoValue)
    (h : i.rets.getLast? = some last) (he : last.type.isErr = true) :
    i.rets.dropLast.map GoValue.type = outKindsOf i := by
  rw [outKindsOf, getLast?_map_type, h]
  dsimp only [Option.map]
  rw [if_pos he]
  exact (dropLast_map_type i.rets).symm

theorem outKindsOf_eq_of_noerr (i : Initializer) (last : GoValue)
    (h : i.rets.getLast? = some last) (he : last.type.isErr = false) :
    i.rets.map GoValue.type = outKindsOf i := by
  rw [outKindsOf, getLast?_map_type, h]
  dsimp only [Option.map]
  simp [he]

theorem rets_getLast_of_outKinds_ne (i : Initializer) (h : outKindsOf i ≠ []) :
    ∃ last, i.rets.getLast? = some last := by
  cases hl : i.rets.getLast? with
  | some last => exact ⟨last, rfl⟩
  | none =>
    exfalso
    apply h
    rw [outKindsOf, getLast?_map_type, hl]
    rfl

theorem calls_count_append (l : List (Nat × Nat)) (p n q : Nat) :
    ((l ++ [(p, n)]).map Prod.fst).count q =
      (l.map Prod.fst).count q + (if q = p then 1 else 0) := by
  rw [List.map_append, List.count_append]
  simp only [List.map_cons, List.map_nil, List.count_cons, List.count_nil]
  by_cases h : q = p
  · simp [h]
  · simp [h, Ne.symm h]

theorem ResolveInv.cycleSet (prog : List Initializer) (rank : Kind → Nat)
    (D : Nat) (st : St) (x : List Kind) (h : ResolveInv prog rank D st) :
    ResolveInv prog rank D { st with cycle := x } :=
  ⟨h.progEq, h.nodupKeys, h.good, h.depsKeys, h.prodRec, h.countFired, h.countIdle⟩

theorem StepMono.cycleL (st st1 : St) (x : List Kind) (h : StepMono st st1) :
    StepMono { st with cycle := x } st1 :=
  ⟨h.progEq, h.keysEq, h.recPres⟩

theorem StepMono.cycleR (st st1 : St) (x : List Kind) (h : StepMono st st1) :
    StepMono st { st1 with cycle := x } :=
  ⟨h.progEq, h.keysEq, h.recPres⟩

/-- Finishing a constructor call: storing the (error-trimmed) outputs of
position p over a state whose call log just recorded the call restores the
resolution invariant, preserves everything StepMono tracks, and resolves
exactly the product kinds of p. -/
theorem fire_finish (prog : List Initializer) (rank : Kind → Nat) (D : Nat)
    (st1 : St) (k : Kind) (c1 : ComponentR) (p n : Nat) (X : List GoValue)
    (hInv1 : ResolveInv prog rank D st1)
    (hl1 : lookupC st1.components k = some c1)
    (hvn1 : c1.value = none)
    (hX : X.map GoValue.type = outKindsOf (prog.getD p defaultInit))
    (hkX : k ∈ outKindsOf (prog.getD p defaultInit))
    (hplt : p < prog.length) :
    ResolveInv prog rank D (storeOuts X { st1 with calls := st1.calls ++ [(p, n)] }) ∧
    StepMono st1 (storeOuts X { st1 with calls := st1.calls ++ [(p, n)] }) ∧
    (storeOuts X { st1 with calls := st1.calls ++ [(p, n)] }).cycle = st1.cycle ∧
    (storeOuts X { st1 with calls := st1.calls ++ [(p, n)] }).calls =
      st1.calls ++ [(p, n)] ∧
    (∀ k2, valuedAt (storeOuts X { st1 with calls := st1.calls ++ [(p, n)] }) k2 ↔
      (valuedAt st1 k2 ∨ k2 ∈ outKindsOf (prog.getD p defaultInit))) := by
  have hmc : StepMono st1 { st1 with calls := st1.calls ++ [(p, n)] } :=
    ⟨rfl, rfl, fun _ c h => ⟨c, h, rfl, rfl, fun hv => hv⟩⟩
  have m13 : StepMono st1 (storeOuts X { st1 with calls := st1.calls ++ [(p, n)] }) :=
    StepMono.trans _ _ _ hmc (stepMono_storeOuts X _)
  have hvaliff : ∀ k2,
      valuedAt (storeOuts X { st1 with calls := st1.calls ++ [(p, n)] }) k2 ↔
        (valuedAt st1 k2 ∨ k2 ∈ outKindsOf (prog.getD p defaultInit)) := by
    intro k2
    constructor
    · intro hv3
      by_cases hm : k2 ∈ X.map GoValue.type
      · right
        rw [← hX]
        exact hm
      · left
        obtain ⟨c3, hl3, hs3⟩ := hv3
        rw [storeOuts_lookup_not_mem _ _ _ hm] at hl3
        exact ⟨c3, hl3, hs3⟩
    · intro hv1
      rcases hv1 with hv1 | hm
      · exact valuedAt_storeOuts X _ k2 hv1
      · obtain ⟨ck, hlk, -⟩ := hInv1.prodRec p hplt k2 hm
        apply storeOuts_valued X _ k2 (by rw [hX]; exact hm)
        show (lookupC st1.components k2).isSome = true
        rw [hlk]
        rfl
  have hnotval1 : ¬ valuedAt st1 k := by
    rintro ⟨c', hl', hs'⟩
    rw [hl1] at hl'
    cases hl'
    rw [hvn1] at hs'
    cases hs'
  have hdisj : ∀ q, q < prog.length → q ≠ p →
      ∀ k2 ∈ outKindsOf (prog.getD q defaultInit),
        k2 ∉ outKindsOf (prog.getD p defaultInit) := by
    intro q hq hne k2 hkq hkp
    obtain ⟨cq, hlq, hctq⟩ := hInv1.prodRec q hq k2 hkq
    obtain ⟨cp, hlp, hctp⟩ := hInv1.prodRec p hplt k2 hkp
    rw [hlq] at hlp
    cases hlp
    exact hne (hctq.symm.trans hctp)
  have hcalls3 :
      (storeOuts X { st1 with calls := st1.calls ++ [(p, n)] }).calls =
        st1.calls ++ [(p, n)] := by
    rw [storeOuts_calls]
  refine ⟨?_, m13, by rw [storeOuts_cycle], hcalls3, hvaliff⟩
  refine ⟨?_, ?_, ?_, ?_, ?_, ?_, ?_⟩
  · rw [storeOuts_prog]
    exact hInv1.progEq
  · rw [storeOuts_components_keys]
    exact hInv1.nodupKeys
  · intro k2 c2 hl2 hv2
    have hl2' := storeOuts_unresolved X { st1 with calls := st1.calls ++ [(p, n)] }
      k2 c2 hl2 hv2
    exact hInv1.good k2 c2 hl2' hv2
  · intro k2 c2 hl2 d hd
    obtain ⟨c0, hl0, -, hdp⟩ := m13.back k2 c2 hl2
    have hd0 : d ∈ c0.dependencies := by
      rw [← hdp]
      exact hd
    have hps := hInv1.depsKeys k2 c0 hl0 d hd0
    rw [lookupC_isSome_iff_mem] at hps
    rw [lookupC_isSome_iff_mem, m13.keysEq]
    exact hps
  · intro q hq k2 hk2
    obtain ⟨cq, hlq, hctq⟩ := hInv1.prodRec q hq k2 hk2
    obtain ⟨cq', hlq', hct', -, -⟩ := m13.recPres k2 cq hlq
    exact ⟨cq', hlq', hct'.trans hctq⟩
  · intro q hq hall hne
    rw [hcalls3, calls_count_append]
    by_cases hqp : q = p
    · subst hqp
      rw [if_pos rfl]
      have h0 := hInv1.countIdle q (Or.inl ⟨k, hkX, hnotval1⟩)
      omega
    · rw [if_neg hqp, Nat.add_zero]
      apply hInv1.countFired q hq ?_ hne
      intro k2 hk2
      rcases (hvaliff k2).mp (hall k2 hk2) with hv | hm
      · exact hv
      · exact absurd hm (hdisj q hq hqp k2 hk2)
  · intro q hyp
    rw [hcalls3, calls_count_append]
    by_cases hqp : q = p
    · subst hqp
      exfalso
      rcases hyp with ⟨k2, hk2, hnv⟩ | hnl | hempty
      · exact hnv ((hvaliff k2).mpr (Or.inr hk2))
      · exact hnl hplt
      · rw [hempty] at hkX
        cases hkX
    · rw [if_neg hqp, Nat.add_zero]
      apply hInv1.countIdle q
      rcases hyp with ⟨k2, hk2, hnv⟩ | hnl | hempty
      · exact Or.inl ⟨k2, hk2, fun hv1 => hnv ((hvaliff k2).mpr (Or.inl hv1))⟩
      · exact Or.inr (Or.inl hnl)
      · exact Or.inr (Or.inr hempty)

/-- Joint resolution lemma for well-formed states: with a rank function
that strictly decreases along dependencies, a dependency bound D and
enough fuel, resolving any registered component (and any dependency list
of bounded rank) succeeds, preserves the invariant, resolves the target,
and appends to the call log only entries attributable to records of rank
below the target. -/
theorem resolve_ok (prog : List Initializer) (rank : Kind → Nat) (D : Nat) :
    ∀ fuel : Nat,
      (∀ (k : Kind) (c : ComponentR) (st : St), ResolveInv prog rank D st →
        lookupC st.components k = some c →
        (rank k + 1) * (D + 2) ≤ fuel →
        (∀ y ∈ st.cycle, rank k ≤ rank y) →
        ∃ st1, resolveStep fuel (.comp c) st = (.ok [], st1) ∧
          ResolveInv prog rank D st1 ∧ StepMono st st1 ∧
          st1.cycle = st.cycle ∧ valuedAt st1 k ∧
          ∃ nc, st1.calls = st.calls ++ nc ∧
            (∀ e ∈ nc, e.1 < prog.length ∧
              ((e.1 = c.constructor ∧ c.value = none) ∨
                ∃ k2 c2, lookupC st.components k2 = some c2 ∧ c2.value = none ∧
                  k2 ∈ outKindsOf (prog.getD e.1 defaultInit) ∧ rank k2 < rank k)) ∧
            (∀ k2, valuedAt st1 k2 → valuedAt st k2 ∨
              ∃ p2 ∈ nc.map Prod.fst, k2 ∈ outKindsOf (prog.getD p2 defaultInit))) ∧
      (∀ (ds : List Kind) (R : Nat) (st : St), ResolveInv prog rank D st →
        (∀ d ∈ ds, (lookupC st.components d).isSome = true) →
        (∀ d ∈ ds, rank d < R) →
        R * (D + 2) + ds.length + 1 ≤ fuel →
        (∀ y ∈ st.cycle, R ≤ rank y) →
        ∃ vs st1, resolveStep fuel (.deps ds) st = (.ok vs, st1) ∧
          ResolveInv prog rank D st1 ∧ StepMono st st1 ∧
          st1.cycle = st.cycle ∧ (∀ d ∈ ds, valuedAt st1 d) ∧
          ∃ nc, st1.calls = st.calls ++ nc ∧
            (∀ e ∈ nc, e.1 < prog.length ∧
              ∃ k2 c2, lookupC st.components k2 = some c2 ∧ c2.value = none ∧
                k2 ∈ outKindsOf (prog.getD e.1 defaultInit) ∧
                ∃ d0 ∈ ds, rank k2 ≤ rank d0) ∧
            (∀ k2, valuedAt st1 k2 → valuedAt st k2 ∨
              ∃ p2 ∈ nc.map Prod.fst, k2 ∈ outKindsOf (prog.getD p2 defaultInit))) := by
  intro fuel
  induction fuel with
  | zero =>
    constructor
    · intro k c st _ _ hf _
      exfalso
      have hpos : 0 < (rank k + 1) * (D + 2) :=
        Nat.mul_pos (Nat.succ_pos _) (by omega)
      omega
    · intro ds R st _ _ _ hf _
      exfalso
      omega
  | succ f ih =>
    obtain ⟨ihc, ihd⟩ := ih
    constructor
    · intro k c st hInv hl hf hcyc
      by_cases hv : c.value.isSome = true
      · refine ⟨st, by simp [resolveStep, hv], hInv, stepMono_id st, rfl, ⟨c, hl, hv⟩,
          [], by simp, ?_, ?_⟩
        · intro e he
          cases he
        · intro k2 h2
          exact Or.inl h2
      · have hvn : c.value = none := Option.not_isSome_iff_eq_none.mp hv
        obtain ⟨hplt, hdeps, hkout, hdlen, hranks, last, hlast, herr⟩ :=
          hInv.good k c hl hvn
        have hfd : rank k * (D + 2) + c.dependencies.length + 1 ≤ f := by
          have hexp : (rank k + 1) * (D + 2) = rank k * (D + 2) + (D + 2) := by
            ring
          omega
        obtain ⟨vs, st1, hres, hInv1, hMono1, hcyc1, hvald, nc1, hcalls1, hnc1, hnew1⟩ :=
          ihd c.dependencies (rank k) st hInv (hInv.depsKeys k c hl) hranks hfd hcyc
        obtain ⟨c1, hl1, hc1ctor, hc1deps, -⟩ := hMono1.recPres k c hl
        have hnotv1 : ¬ valuedAt st1 k := by
          intro hval1
          rcases hnew1 k hval1 with hv0 | ⟨p2, hp2, hk2out⟩
          · obtain ⟨c', hl', hs'⟩ := hv0
            rw [hl] at hl'
            cases hl'
            rw [hvn] at hs'
            cases hs'
          · obtain ⟨e, he, hefst⟩ := List.mem_map.mp hp2
            obtain ⟨helt, k2, c2, hlk2, hvk2, hk2o, d0, hd0, hrle⟩ := hnc1 e he
            rw [hefst] at hk2o helt
            obtain ⟨ck, hlk, hckctor⟩ := hInv.prodRec p2 helt k hk2out
            rw [hl] at hlk
            cases hlk
            obtain ⟨ck2, hlck2, hck2ctor⟩ := hInv.prodRec p2 helt k2 hk2o
            rw [hlk2] at hlck2
            cases hlck2
            obtain ⟨-, hdeps2, -, -, hranks2, -⟩ := hInv.good k2 c2 hlk2 hvk2
            have hdepseq : c2.dependencies = c.dependencies := by
              rw [hdeps2, hck2ctor, ← hckctor, ← hdeps]
            have hd0' : d0 ∈ c2.dependencies := by
              rw [hdepseq]
              exact hd0
            have hlt2 := hranks2 d0 hd0'
            omega
        have hvn1 : c1.value = none := by
          cases hc1v : c1.value with
          | none => rfl
          | some v => exact absurd ⟨c1, hl1, by rw [hc1v]; rfl⟩ hnotv1
        have hvb : c.value.isSome = false := by
          rw [hvn]
          rfl
        have hstep : resolveStep (f + 1) (.comp c) st = fireConstructor c vs st1 := by
          simp only [resolveStep, hvb, Bool.false_eq_true, if_false, hres]
        cases hisErr : last.type.isErr with
        | true =>
          have hnil : last.isNil = true := herr hisErr
          have hfire : fireConstructor c vs st1 =
              (.ok [], storeOuts ((prog.getD c.constructor defaultInit).rets.dropLast)
                { st1 with calls := st1.calls ++ [(c.constructor, vs.length)] }) := by
            simp only [fireConstructor, hInv1.progEq, hlast, hisErr, hnil,
              eq_self_iff_true, if_true]
          have hX : ((prog.getD c.constructor defaultInit).rets.dropLast).map GoValue.type =
              outKindsOf (prog.getD c.constructor defaultInit) :=
            outKindsOf_eq_of_err _ last hlast hisErr
          obtain ⟨hInv3, hMono3, hcyc3, hcalls3, hvaliff⟩ :=
            fire_finish prog rank D st1 k c1 c.constructor vs.length
              ((prog.getD c.constructor defaultInit).rets.dropLast)
              hInv1 hl1 hvn1 hX hkout hplt
          refine ⟨storeOuts ((prog.getD c.constructor defaultInit).rets.dropLast)
              { st1 with calls := st1.calls ++ [(c.constructor, vs.length)] },
            by rw [hstep, hfire], hInv3, StepMono.trans _ _ _ hMono1 hMono3,
            by rw [hcyc3, hcyc1], (hvaliff k).mpr (Or.inr hkout),
            nc1 ++ [(c.constructor, vs.length)], ?_, ?_, ?_⟩
          · rw [hcalls3, hcalls1, List.append_assoc]
          · intro e he
            rcases List.mem_append.mp he with he | he
            · obtain ⟨hlt, k2, c2, hlk2, hvk2, hk2o, d0, hd0, hrle⟩ := hnc1 e he
              exact ⟨hlt, Or.inr ⟨k2, c2, hlk2, hvk2, hk2o,
                lt_of_le_of_lt hrle (hranks d0 hd0)⟩⟩
            · rcases List.mem_singleton.mp he with rfl
              exact ⟨hplt, Or.inl ⟨rfl, hvn⟩⟩
          · intro k2 hval3
            rcases (hvaliff k2).mp hval3 with hv1 | hm
            · rcases hnew1 k2 hv1 with hv0 | ⟨p2, hp2, ho⟩
              · exact Or.inl hv0
              · exact Or.inr ⟨p2,
                  by rw [List.map_append]; exact List.mem_append_left _ hp2, ho⟩
            · exact Or.inr ⟨c.constructor,
                by rw [List.map_append]; exact List.mem_append_right _ (by simp), hm⟩
        | false =>
          have hfire : fireConstructor c vs st1 =
              (.ok [], storeOuts (prog.getD c.constructor defaultInit).rets
                { st1 with calls := st1.calls ++ [(c.constructor, vs.length)] }) := by
            simp only [fireConstructor, hInv1.progEq, hlast, hisErr,
              Bool.false_eq_true, if_false]
          have hX : ((prog.getD c.constructor defaultInit).rets).map GoValue.type =
              outKindsOf (prog.getD c.constructor defaultInit) :=
            outKindsOf_eq_of_noerr _ last hlast hisErr
          obtain ⟨hInv3, hMono3, hcyc3, hcalls3, hvaliff⟩ :=
            fire_finish prog rank D st1 k c1 c.constructor vs.length
              (prog.getD c.constructor defaultInit).rets
              hInv1 hl1 hvn1 hX hkout hplt
          refine ⟨storeOuts (prog.getD c.constructor defaultInit).rets
              { st1 with calls := st1.calls ++ [(c.constructor, vs.length)] },
            by rw [hstep, hfire], hInv3, StepMono.trans _ _ _ hMono1 hMono3,
            by rw [hcyc3, hcyc1], (hvaliff k).mpr (Or.inr hkout),
            nc1 ++ [(c.constructor, vs.length)], ?_, ?_, ?_⟩
          · rw [hcalls3, hcalls1, List.append_assoc]
          · intro e he
            rcases List.mem_append.mp he with he | he
            · obtain ⟨hlt, k2, c2, hlk2, hvk2, hk2o, d0, hd0, hrle⟩ := hnc1 e he
              exact ⟨hlt, Or.inr ⟨k2, c2, hlk2, hvk2, hk2o,
                lt_of_le_of_lt hrle (hranks d0 hd0)⟩⟩
            · rcases List.mem_singleton.mp he with rfl
              exact ⟨hplt, Or.inl ⟨rfl, hvn⟩⟩
          · intro k2 hval3
            rcases (hvaliff k2).mp hval3 with hv1 | hm
            · rcases hnew1 k2 hv1 with hv0 | ⟨p2, hp2, ho⟩
              · exact Or.inl hv0
              · exact Or.inr ⟨p2,
                  by rw [List.map_append]; exact List.mem_append_left _ hp2, ho⟩
            · exact Or.inr ⟨c.constructor,
                by rw [List.map_append]; exact List.mem_append_right _ (by simp), hm⟩
    · intro ds R st hInv hpres hrk hfuel hcyc
      cases ds with
      | nil =>
        refine ⟨[], st, by rw [resolveStep], hInv, stepMono_id st, rfl, ?_,
          [], by simp, ?_, ?_⟩
        · intro d hd
          cases hd
        · intro e he
          cases he
        · intro k2 h2
          exact Or.inl h2
      | cons d rest =>
        have hpd : (lookupC st.components d).isSome = true :=
          hpres d (List.mem_cons_self d rest)
        obtain ⟨dep, hlook⟩ := Option.isSome_iff_exists.mp hpd
        have hrd : rank d < R := hrk d (List.mem_cons_self d rest)
        have hdnot : d ∉ st.cycle := by
          intro hmem
          have := hcyc d hmem
          omega
        have hInv1 : ResolveInv prog rank D { st with cycle := d :: st.cycle } :=
          ResolveInv.cycleSet prog rank D st (d :: st.cycle) hInv
        have hfc : (rank d + 1) * (D + 2) ≤ f := by
          have h1 : (rank d + 1) * (D + 2) ≤ R * (D + 2) :=
            Nat.mul_le_mul (by omega) (Nat.le_refl (D + 2))
          simp only [List.length_cons] at hfuel
          omega
        have hcycd : ∀ y ∈ ({ st with cycle := d :: st.cycle } : St).cycle,
            rank d ≤ rank y := by
          intro y hy
          rcases List.mem_cons.mp hy with rfl | hy
          · exact Nat.le_refl _
          · have := hcyc y hy
            omega
        obtain ⟨st2, hstep2, hInv2, hMono2, hcyc2, hvald2, nc2, hcalls2, hnc2, hnew2⟩ :=
          ihc d dep { st with cycle := d :: st.cycle } hInv1 hlook hfc hcycd
        have hcyc2' : st2.cycle = d :: st.cycle := hcyc2
        have hrem : removeKind d st2.cycle = st.cycle := by
          rw [hcyc2', removeKind_cons_self, removeKind_of_not_mem d st.cycle hdnot]
        have hInv3 : ResolveInv prog rank D { st2 with cycle := removeKind d st2.cycle } :=
          ResolveInv.cycleSet prog rank D st2 (removeKind d st2.cycle) hInv2
        have hpres3 : ∀ d2 ∈ rest,
            (lookupC ({ st2 with cycle := removeKind d st2.cycle } : St).components d2).isSome
              = true := by
          intro d2 hd2
          have h0 := hpres d2 (List.mem_cons_of_mem d hd2)
          rw [lookupC_isSome_iff_mem] at h0
          show (lookupC st2.components d2).isSome = true
          rw [lookupC_isSome_iff_mem, hMono2.keysEq]
          exact h0
        have hrk3 : ∀ d2 ∈ rest, rank d2 < R := fun d2 hd2 =>
          hrk d2 (List.mem_cons_of_mem d hd2)
        have hf3 : R * (D + 2) + rest.length + 1 ≤ f := by
          simp only [List.length_cons] at hfuel
          omega
        have hcyc3 : ∀ y ∈ ({ st2 with cycle := removeKind d st2.cycle } : St).cycle,
            R ≤ rank y := by
          intro y hy
          have hy' : y ∈ st.cycle := by
            rw [← hrem]
            exact hy
          exact hcyc y hy'
        obtain ⟨vs4, st4, hstep4, hInv4, hMono4, hcyc4, hvald4, nc4, hcalls4, hnc4, hnew4⟩ :=
          ihd rest R { st2 with cycle := removeKind d st2.cycle } hInv3 hpres3 hrk3 hf3 hcyc3
        have hstep : resolveStep (f + 1) (.deps (d :: rest)) st =
            (.ok ((((lookupC st2.components d).bind ComponentR.value).getD zeroGoValue)
              :: vs4), st4) := by
          simp only [resolveStep, hlook]
          rw [if_neg hdnot]
          simp only [hstep2, hstep4]
        have m02 : StepMono st st2 :=
          ⟨hMono2.progEq, hMono2.keysEq, hMono2.recPres⟩
        have m24 : StepMono st2 st4 :=
          ⟨hMono4.progEq, hMono4.keysEq, hMono4.recPres⟩
        refine ⟨_, st4, hstep, hInv4, StepMono.trans _ _ _ m02 m24, ?_, ?_,
          nc2 ++ nc4, ?_, ?_, ?_⟩
        · rw [hcyc4]
          exact hrem
        · intro d2 hd2
          rcases List.mem_cons.mp hd2 with rfl | hd2
          · exact m24.valued d2 hvald2
          · exact hvald4 d2 hd2
        · rw [hcalls4]
          show st2.calls ++ nc4 = st.calls ++ (nc2 ++ nc4)
          rw [hcalls2]
          show st.calls ++ nc2 ++ nc4 = st.calls ++ (nc2 ++ nc4)
          rw [List.append_assoc]
        · intro e he
          rcases List.mem_append.mp he with he | he
          · obtain ⟨helt, hdisj⟩ := hnc2 e he
            rcases hdisj with ⟨hector, hdepv⟩ | ⟨k2, c2, hlk2, hvk2, hk2o, hlt2⟩
            · obtain ⟨-, -, hdout, -, -, -⟩ := hInv.good d dep hlook hdepv
              refine ⟨helt, d, dep, hlook, hdepv, ?_,
                d, List.mem_cons_self d rest, Nat.le_refl _⟩
              rw [hector]
              exact hdout
            · exact ⟨helt, k2, c2, hlk2, hvk2, hk2o,
                d, List.mem_cons_self d rest, Nat.le_of_lt hlt2⟩
          · obtain ⟨helt, k2, c2, hlk3, hvk3, hk3o, d0, hd0, hle⟩ := hnc4 e he
            have hlk3' : lookupC st2.components k2 = some c2 := hlk3
            have hnv2 : ¬ valuedAt st2 k2 := by
              rintro ⟨c', hl', hs'⟩
              rw [hlk3'] at hl'
              cases hl'
              rw [hvk3] at hs'
              cases hs'
            obtain ⟨c2', hl2', hct', hdp'⟩ := hMono2.back k2 c2 hlk3'
            have hl2'' : lookupC st.components k2 = some c2' := hl2'
            have hvn2' : c2'.value = none := by
              cases hc : c2'.value with
              | none => rfl
              | some v =>
                exfalso
                apply hnv2
                apply hMono2.valued
                exact ⟨c2', hl2', by rw [hc]; rfl⟩
            exact ⟨helt, k2, c2', hl2'', hvn2', hk3o,
              d0, List.mem_cons_of_mem d hd0, hle⟩
        · intro k2 hv4
          rcases hnew4 k2 hv4 with hv3 | ⟨p2, hp2, ho⟩
          · rcases hnew2 k2 hv3 with hv1 | ⟨p2, hp2, ho⟩
            · exact Or.inl hv1
            · exact Or.inr ⟨p2,
                by rw [List.map_append]; exact List.mem_append_left _ hp2, ho⟩
          · exact Or.inr ⟨p2,
              by rw [List.map_append]; exact List.mem_append_right _ hp2, ho⟩

/-- The resolution loop of initializeComponents on a well-formed state:
every registry key resolves in turn, the invariant is maintained, and on
return the path is empty and every visited kind holds a value. -/
theorem initializeComponentsLoop_ok (prog : List Initializer) (rank : Kind → Nat)
    (D : Nat) (fuel : Nat) :
    ∀ (order : List Kind) (st : St), ResolveInv prog rank D st → st.cycle = [] →
      (∀ k ∈ order, (lookupC st.components k).isSome = true) →
      (∀ k ∈ order, (rank k + 1) * (D + 2) ≤ fuel) →
      ∃ st1, initializeComponentsLoop fuel order st = (none, st1) ∧
        ResolveInv prog rank D st1 ∧ StepMono st st1 ∧ st1.cycle = [] ∧
        (∀ k ∈ order, valuedAt st1 k) := by
  intro order
  induction order with
  | nil =>
    intro st hInv hc _ _
    exact ⟨st, rfl, hInv, stepMono_id st, hc, fun k hk => absurd hk (List.not_mem_nil k)⟩
  | cons k rest ih =>
    intro st hInv hc hpres hf
    have hpk := hpres k (List.mem_cons_self k rest)
    obtain ⟨c, hlk⟩ := Option.isSome_iff_exists.mp hpk
    have hInv1 : ResolveInv prog rank D { st with cycle := k :: st.cycle } :=
      ResolveInv.cycleSet prog rank D st (k :: st.cycle) hInv
    have hcycb : ∀ y ∈ ({ st with cycle := k :: st.cycle } : St).cycle,
        rank k ≤ rank y := by
      intro y hy
      rcases List.mem_cons.mp hy with rfl | hy
      · exact Nat.le_refl _
      · rw [hc] at hy
        cases hy
    obtain ⟨st2, hstep2, hInv2, hMono2, hcyc2, hvald2, -⟩ :=
      (resolve_ok prog rank D fuel).1 k c { st with cycle := k :: st.cycle } hInv1 hlk
        (hf k (List.mem_cons_self k rest)) hcycb
    have hic : initializeComponent fuel c { st with cycle := k :: st.cycle } =
        (none, st2) := by
      rw [initializeComponent, hstep2]
    have hcyc2' : st2.cycle = k :: st.cycle := hcyc2
    have hrem : removeKind k st2.cycle = [] := by
      rw [hcyc2', removeKind_cons_self, hc]
      rfl
    have hInv3 : ResolveInv prog rank D { st2 with cycle := removeKind k st2.cycle } :=
      ResolveInv.cycleSet prog rank D st2 (removeKind k st2.cycle) hInv2
    have hpres3 : ∀ k2 ∈ rest,
        (lookupC ({ st2 with cycle := removeKind k st2.cycle } : St).components k2).isSome
          = true := by
      intro k2 hk2
      have h0 := hpres k2 (List.mem_cons_of_mem k hk2)
      rw [lookupC_isSome_iff_mem] at h0
      show (lookupC st2.components k2).isSome = true
      rw [lookupC_isSome_iff_mem, hMono2.keysEq]
      exact h0
    obtain ⟨st4, hstep4, hInv4, hMono4, hcyc4, hvald4⟩ :=
      ih { st2 with cycle := removeKind k st2.cycle } hInv3 hrem hpres3
        (fun k2 hk2 => hf k2 (List.mem_cons_of_mem k hk2))
    have hloop : initializeComponentsLoop fuel (k :: rest) st = (none, st4) := by
      simp only [initializeComponentsLoop, hlk, hic, hstep4]
    have m02 : StepMono st st2 := ⟨hMono2.progEq, hMono2.keysEq, hMono2.recPres⟩
    have m24 : StepMono st2 st4 := ⟨hMono4.progEq, hMono4.keysEq, hMono4.recPres⟩
    refine ⟨st4, hloop, hInv4, StepMono.trans _ _ _ m02 m24, hcyc4, ?_⟩
    intro k2 hk2
    rcases List.mem_cons.mp hk2 with rfl | hk2
    · exact m24.valued k2 hvald2
    · exact hvald4 k2 hk2

/-- Registration of a list of fresh, distinct kinds always succeeds. -/
theorem registerOuts_ok_of (deps : List Kind) (ctor : Nat) :
    ∀ ks m, (∀ k ∈ ks, k ∉ keysOf m) → ks.Nodup →
      ∃ m1, registerOuts deps ctor m ks = .ok m1 := by
  intro ks
  induction ks with
  | nil =>
    intro m _ _
    exact ⟨m, rfl⟩
  | cons k rest ih =>
    intro m hnot hnd
    have hkm : k ∉ keysOf m := hnot k (List.mem_cons_self k rest)
    have hlk : lookupC m k = none := (lookupC_eq_none_iff m k).mpr hkm
    obtain ⟨hknr, hndr⟩ := List.nodup_cons.mp hnd
    have hnot2 : ∀ k2 ∈ rest, k2 ∉ keysOf (m ++ [(k, ⟨deps, ctor, none⟩)]) := by
      intro k2 hk2 hmem
      rw [keysOf_append] at hmem
      rcases List.mem_append.mp hmem with hmem | hmem
      · exact hnot k2 (List.mem_cons_of_mem k hk2) hmem
      · have hk2k : k2 = k := by
          simpa [keysOf] using hmem
        exact hknr (hk2k ▸ hk2)
    obtain ⟨m1, hm1⟩ := ih (m ++ [(k, ⟨deps, ctor, none⟩)]) hnot2 hndr
    refine ⟨m1, ?_⟩
    simp only [registerOuts, hlk, Option.isSome_none, Bool.false_eq_true, if_false]
    exact hm1

/-- Graph building succeeds whenever the declared product kinds, together
with the keys already present, are pairwise distinct. -/
theorem collect_ok_of :
    ∀ (is : List Initializer) m idx,
      (keysOf m ++ (is.map outKindsOf).flatten).Nodup →
      ∃ acts m1, collectComponents m is idx = .ok (acts, m1) := by
  intro is
  induction is with
  | nil =>
    intro m idx _
    exact ⟨[], m, rfl⟩
  | cons i rest ih =>
    intro m idx hnd
    simp only [List.map_cons, List.flatten_cons] at hnd
    by_cases hie : (outKindsOf i).isEmpty = true
    · have hie' : outKindsOf i = [] := List.isEmpty_iff.mp hie
      have hnd2 : (keysOf m ++ (rest.map outKindsOf).flatten).Nodup := by
        rw [hie'] at hnd
        simpa using hnd
      obtain ⟨acts, m1, hok⟩ := ih m (idx + 1) hnd2
      refine ⟨⟨depsOf i, idx⟩ :: acts, m1, ?_⟩
      simp only [collectComponents]
      rw [if_pos hie]
      simp only [hok]
    · have hnd' : (keysOf m ++ outKindsOf i ++ (rest.map outKindsOf).flatten).Nodup := by
        rw [List.append_assoc]
        exact hnd
      have houts_sub : ∀ k ∈ outKindsOf i, k ∉ keysOf m := by
        intro k hk hkm
        have hd := (List.nodup_append.mp hnd).2.2
        exact hd hkm (List.mem_append_left _ hk)
      have houts_nd : (outKindsOf i).Nodup :=
        (List.nodup_append.mp ((List.nodup_append.mp hnd).2.1)).1
      obtain ⟨m2, hm2⟩ :=
        registerOuts_ok_of (depsOf i) idx (outKindsOf i) m houts_sub houts_nd
      have hkeys2 : keysOf m2 = keysOf m ++ outKindsOf i :=
        (registerOuts_ok_shape _ _ _ _ _ hm2).1
      have hnd3 : (keysOf m2 ++ (rest.map outKindsOf).flatten).Nodup := by
        rw [hkeys2, List.append_assoc]
        exact hnd
      obtain ⟨acts, m1, hok⟩ := ih m2 (idx + 1) hnd3
      refine ⟨acts, m1, ?_⟩
      simp only [collectComponents]
      rw [if_neg hie]
      simp only [hm2, hok]

/-- Every action kept aside by collectComponents is a zero-output
initializer of the processed list, carrying its derived dependencies and
its absolute position. -/
theorem collect_acts :
    ∀ (is : List Initializer) m idx acts m1,
      collectComponents m is idx = .ok (acts, m1) →
      ∀ a ∈ acts, ∃ j, j < is.length ∧
        a.dependencies = depsOf (is.getD j defaultInit) ∧
        a.init = idx + j ∧
        outKindsOf (is.getD j defaultInit) = [] := by
  intro is
  induction is with
  | nil =>
    intro m idx acts m1 h a ha
    cases h
    cases ha
  | cons i rest ih =>
    intro m idx acts m1 h a ha
    rw [collectComponents] at h
    split at h
    · rename_i hempty
      split at h
      · rename_i acts2 m2 heq
        cases h
        rcases List.mem_cons.mp ha with rfl | ha2
        · refine ⟨0, Nat.succ_pos _, ?_, ?_, ?_⟩
          · rw [List.getD_cons_zero]
          · simp
          · rw [List.getD_cons_zero]
            exact List.isEmpty_iff.mp hempty
        · obtain ⟨j, hj, hd, hi, ho⟩ := ih _ _ _ _ heq a ha2
          refine ⟨j + 1, by simpa using Nat.succ_lt_succ hj, ?_, ?_, ?_⟩
          · rw [List.getD_cons_succ]
            exact hd
          · rw [hi]
            omega
          · rw [List.getD_cons_succ]
            exact ho
      · cases h
    · split at h
      · cases h
      · rename_i m2 heq
        obtain ⟨j, hj, hd, hi, ho⟩ := ih _ _ _ _ h a ha
        refine ⟨j + 1, by simpa using Nat.succ_lt_succ hj, ?_, ?_, ?_⟩
        · rw [List.getD_cons_succ]
          exact hd
        · rw [hi]
          omega
        · rw [List.getD_cons_succ]
          exact ho

/-- Dependency gathering of invokeInits succeeds on a registry holding
every requested kind. -/
theorem insOfInit_ok (st : St) :
    ∀ ds, (∀ d ∈ ds, (lookupC st.components d).isSome = true) →
      ∃ vs, insOfInit st ds = .ok vs := by
  intro ds
  induction ds with
  | nil =>
    intro _
    exact ⟨[], rfl⟩
  | cons d rest ih =>
    intro hp
    obtain ⟨c, hcv⟩ := Option.isSome_iff_exists.mp (hp d (List.mem_cons_self d rest))
    obtain ⟨vs, hvs⟩ := ih (fun d2 hd2 => hp d2 (List.mem_cons_of_mem d hd2))
    refine ⟨c.value.getD zeroGoValue :: vs, ?_⟩
    simp only [insOfInit, hcv, hvs]

/-- invokeInits succeeds, and touches neither the registry nor the
constructor call log, when every action's dependencies are registered and
every action's lone result slot is nil. -/
theorem invokeInits_ok (prog : List Initializer) :
    ∀ (acts : List InitFunc) (st : St), st.prog = prog →
      (∀ a ∈ acts, (∀ d ∈ a.dependencies, (lookupC st.components d).isSome = true) ∧
        (∀ e rest2, (prog.getD a.init defaultInit).rets = e :: rest2 → e.isNil = true)) →
      ∃ st1, invokeInits st acts = (none, st1) ∧ st1.components = st.components ∧
        st1.calls = st.calls ∧ st1.runners = st.runners ∧
        st1.shutdowners = st.shutdowners := by
  intro acts
  induction acts with
  | nil =>
    intro st _ _
    exact ⟨st, rfl, rfl, rfl, rfl, rfl⟩
  | cons a rest ih =>
    intro st hprog hcond
    obtain ⟨hdeps, hnil⟩ := hcond a (List.mem_cons_self a rest)
    obtain ⟨vs, hvs⟩ := insOfInit_ok st a.dependencies hdeps
    obtain ⟨st2, hst2, hcmp, hcalls, hrun, hshut⟩ :=
      ih { st with initCalls := st.initCalls ++ [(a.init, vs.length)] } hprog
        (fun a2 ha2 => hcond a2 (List.mem_cons_of_mem a ha2))
    refine ⟨st2, ?_, hcmp, hcalls, hrun, hshut⟩
    simp only [invokeInits, hvs]
    cases hrets : (st.prog.getD a.init defaultInit).rets with
    | nil =>
      simp only [hrets]
      exact hst2
    | cons e rest2 =>
      have hn : e.isNil = true := hnil e rest2 (by rw [← hprog]; exact hrets)
      simp only [hrets, hn, if_true]
      exact hst2

theorem kind_getLast_cons :
    ∀ (l : List Kind) (a : Kind), ∃ x, (a :: l).getLast? = some x := by
  intro l
  induction l with
  | nil =>
    intro a
    exact ⟨a, rfl⟩
  | cons b t ih =>
    intro a
    rw [List.getLast?_cons_cons]
    exact ih b

/-- An initializer with no product kinds returns nothing at all or only a
single error slot. -/
theorem outKinds_nil_rets (i : Initializer) (e : GoValue) (r : List GoValue)
    (h : i.rets = e :: r) (ho : outKindsOf i = []) :
    r = [] ∧ e.type.isErr = true := by
  cases r with
  | nil =>
    refine ⟨rfl, ?_⟩
    by_cases he : e.type.isErr = true
    · exact he
    · exfalso
      rw [outKindsOf, h] at ho
      simp [he] at ho
  | cons e2 r2 =>
    exfalso
    rw [outKindsOf, h] at ho
    simp only [List.map_cons] at ho
    obtain ⟨lk, hlk⟩ := kind_getLast_cons (e2.type :: List.map GoValue.type r2) e.type
    rw [hlk] at ho
    by_cases hlke : lk.isErr = true
    · simp [hlke, List.dropLast_cons₂] at ho
    · simp [hlke] at ho

/-- The registry produced by graph building on a well-formed merged list
satisfies the resolution invariant from the start. -/
theorem inv_after_collect (prog : List Initializer) (rank : Kind → Nat) (D : Nat)
    (acts : List InitFunc) (m : CMap)
    (hcc : collectComponents (initialSt prog).components prog 0 = .ok (acts, m))
    (Hmiss : ∀ j, j < prog.length → ∀ d ∈ depsOf (prog.getD j defaultInit),
      d ∈ ctxKind :: (prog.map outKindsOf).flatten)
    (Hrank : ∀ j, j < prog.length → ∀ d ∈ depsOf (prog.getD j defaultInit),
      ∀ k ∈ outKindsOf (prog.getD j defaultInit), rank d < rank k)
    (HD : ∀ j, j < prog.length → (depsOf (prog.getD j defaultInit)).length ≤ D)
    (Hok : ∀ j, j < prog.length → ∀ last,
      (prog.getD j defaultInit).rets.getLast? = some last →
      last.type.isErr = true → last.isNil = true) :
    ResolveInv prog rank D { initialSt prog with components := m } := by
  obtain ⟨hkeys, hnotm0, hndfl⟩ := collect_ok_shape prog _ 0 acts m hcc
  have hm0keys : keysOf (initialSt prog).components = [ctxKind] := rfl
  have hkeys' : keysOf m = ctxKind :: (prog.map outKindsOf).flatten := by
    rw [hkeys, hm0keys]
    rfl
  have hctxnot : ctxKind ∉ (prog.map outKindsOf).flatten := by
    intro hmem
    exact hnotm0 ctxKind hmem (by rw [hm0keys]; exact List.mem_cons_self _ _)
  have hgetD : ∀ j (hj : j < prog.length), prog.getD j defaultInit = prog[j] := by
    intro j hj
    rw [List.getD_eq_getElem?_getD, List.getElem?_eq_getElem hj]
    rfl
  have hrec : ∀ k c, lookupC m k = some c → c.value = none →
      ∃ j, j < prog.length ∧ c = ⟨depsOf (prog.getD j defaultInit), j, none⟩ ∧
        k ∈ outKindsOf (prog.getD j defaultInit) := by
    intro k c hl hvn
    rcases collect_records prog _ 0 acts m hcc k c hl with hcase | ⟨j, hj, hc, hk⟩
    · obtain ⟨hk0, hc0⟩ := lookupC_singleton _ _ _ _ hcase
      rw [hc0] at hvn
      cases hvn
    · refine ⟨j, hj, ?_, hk⟩
      rw [hc]
      simp
  have hmemfl : ∀ p, p < prog.length → ∀ k ∈ outKindsOf (prog.getD p defaultInit),
      k ∈ (prog.map outKindsOf).flatten := by
    intro p hp k hk
    apply List.mem_flatten.mpr
    refine ⟨outKindsOf (prog.getD p defaultInit), ?_, hk⟩
    rw [hgetD p hp]
    exact List.mem_map.mpr ⟨prog[p], List.getElem_mem hp, rfl⟩
  have hown : ∀ p, p < prog.length → ∀ k ∈ outKindsOf (prog.getD p defaultInit),
      ∃ c, lookupC m k = some c ∧ c.constructor = p := by
    intro p hp k hk
    have hkm : k ∈ keysOf m := by
      rw [hkeys']
      exact List.mem_cons_of_mem _ (hmemfl p hp k hk)
    rw [← lookupC_isSome_iff_mem] at hkm
    obtain ⟨c, hc⟩ := Option.isSome_iff_exists.mp hkm
    refine ⟨c, hc, ?_⟩
    rcases collect_records prog _ 0 acts m hcc k c hc with hcase | ⟨j, hj, hcj, hkj⟩
    · obtain ⟨hk0, -⟩ := lookupC_singleton _ _ _ _ hcase
      exact absurd (hk0 ▸ hmemfl p hp k hk) hctxnot
    · have hj' : j = p := by
        by_contra hne
        have hjl : j < (prog.map outKindsOf).length := by simpa using hj
        have hpl : p < (prog.map outKindsOf).length := by simpa using hp
        apply flatten_nodup_disjoint_at (prog.map outKindsOf) hndfl j p hjl hpl hne k
        · have hx : (prog.map outKindsOf)[j] = outKindsOf (prog.getD j defaultInit) := by
            rw [hgetD j hj, List.getElem_map]
          rw [hx]
          exact hkj
        · have hx : (prog.map outKindsOf)[p] = outKindsOf (prog.getD p defaultInit) := by
            rw [hgetD p hp, List.getElem_map]
          rw [hx]
          exact hk
      rw [hcj]
      show 0 + j = p
      omega
  refine ⟨rfl, ?_, ?_, ?_, ?_, ?_, ?_⟩
  · show (keysOf m).Nodup
    rw [hkeys']
    exact List.nodup_cons.mpr ⟨hctxnot, hndfl⟩
  · intro k c hl hvn
    obtain ⟨j, hj, hc, hk⟩ := hrec k c hl hvn
    subst hc
    refine ⟨hj, rfl, hk, HD j hj, ?_, ?_⟩
    · intro d hd
      exact Hrank j hj d hd k hk
    · have hone : outKindsOf (prog.getD j defaultInit) ≠ [] := by
        intro hh
        rw [hh] at hk
        cases hk
      obtain ⟨last, hlast⟩ := rets_getLast_of_outKinds_ne _ hone
      exact ⟨last, hlast, Hok j hj last hlast⟩
  · intro k c hl d hd
    cases hcv : c.value with
    | some v =>
      rcases collect_records prog _ 0 acts m hcc k c hl with hcase | ⟨j, hj, hcj, hkj⟩
      · obtain ⟨hk0, hc0⟩ := lookupC_singleton _ _ _ _ hcase
        rw [hc0] at hd
        simp at hd
      · rw [hcj] at hcv
        cases hcv
    | none =>
      obtain ⟨j, hj, hcj, hkj⟩ := hrec k c hl hcv
      have hd' : d ∈ depsOf (prog.getD j defaultInit) := by
        rw [hcj] at hd
        exact hd
      have hdk := Hmiss j hj d hd'
      rw [← hkeys'] at hdk
      rw [lookupC_isSome_iff_mem]
      exact hdk
  · exact hown
  · intro p hp hall hne
    exfalso
    obtain ⟨k, hk⟩ : ∃ k, k ∈ outKindsOf (prog.getD p defaultInit) := by
      cases ho : outKindsOf (prog.getD p defaultInit) with
      | nil => exact absurd ho hne
      | cons a t => exact ⟨a, List.mem_cons_self a t⟩
    obtain ⟨c, hc, hctor⟩ := hown p hp k hk
    have hvn : c.value = none := by
      rcases collect_records prog _ 0 acts m hcc k c hc with hcase | ⟨j, hj, hcj, hkj⟩
      · obtain ⟨hk0, -⟩ := lookupC_singleton _ _ _ _ hcase
        exact absurd (hk0 ▸ hmemfl p hp k hk) hctxnot
      · rw [hcj]
    obtain ⟨c', hl', hs'⟩ := hall k hk
    have hl'' : lookupC m k = some c' := hl'
    rw [hc] at hl''
    cases hl''
    rw [hvn] at hs'
    cases hs'
  · intro p _
    rfl

/-- C2: for every initializer set (pre-built values merged in) whose
declared product kinds are pairwise distinct and distinct from the
context kind, whose dependencies are all declared kinds, whose dependency
graph is acyclic (witnessed by a rank function strictly decreasing from
every product to each of its dependencies), whose initializers do not
return a non-nil error, and with enough fuel, New succeeds, every
declared product kind can be retrieved and holds a resolved value, and
every constructor is invoked exactly once (the instrumentation log holds
exactly one entry per producing position - in particular the pre-resolved
context record is never reconstructed). -/
theorem c2_wellformed_assembly (fuel : Nat) (cs : List GoValue)
    (is : List Initializer) (rank : Kind → Nat) (D : Nat)
    (Hdup : (ctxKind ::
      ((mergeComponentsInitializers cs is).map outKindsOf).flatten).Nodup)
    (Hmiss : ∀ j, j < (mergeComponentsInitializers cs is).length →
      ∀ d ∈ depsOf ((mergeComponentsInitializers cs is).getD j defaultInit),
        d ∈ ctxKind :: ((mergeComponentsInitializers cs is).map outKindsOf).flatten)
    (Hrank : ∀ j, j < (mergeComponentsInitializers cs is).length →
      ∀ d ∈ depsOf ((mergeComponentsInitializers cs is).getD j defaultInit),
        ∀ k ∈ outKindsOf ((mergeComponentsInitializers cs is).getD j defaultInit),
          rank d < rank k)
    (HD : ∀ j, j < (mergeComponentsInitializers cs is).length →
      (depsOf ((mergeComponentsInitializers cs is).getD j defaultInit)).length ≤ D)
    (Hok : ∀ j, j < (mergeComponentsInitializers cs is).length → ∀ last,
      ((mergeComponentsInitializers cs is).getD j defaultInit).rets.getLast? =
        some last → last.type.isErr = true → last.isNil = true)
    (Hfuel : ∀ k ∈ ctxKind ::
        ((mergeComponentsInitializers cs is).map outKindsOf).flatten,
      (rank k + 1) * (D + 2) ≤ fuel) :
    (New fuel cs is).err = none ∧
    (∀ k ∈ ((mergeComponentsInitializers cs is).map outKindsOf).flatten,
      ((New fuel cs is).app.retrieveC k).1 = true ∧
        ((New fuel cs is).app.retrieveC k).2.isSome = true) ∧
    (∀ p, p < (mergeComponentsInitializers cs is).length →
      outKindsOf ((mergeComponentsInitializers cs is).getD p defaultInit) ≠ [] →
      (((New fuel cs is).final.calls.map Prod.fst).count p) = 1) := by
  set prog := mergeComponentsInitializers cs is with hprogdef
  have hndkeys :
      (keysOf (initialSt prog).components ++ (prog.map outKindsOf).flatten).Nodup := by
    have hm0 : keysOf (initialSt prog).components = [ctxKind] := rfl
    rw [hm0]
    simpa using Hdup
  obtain ⟨acts, m, hcc⟩ := collect_ok_of prog (initialSt prog).components 0 hndkeys
  have hInv0 : ResolveInv prog rank D { initialSt prog with components := m } :=
    inv_after_collect prog rank D acts m hcc Hmiss Hrank HD Hok
  obtain ⟨hkeys, hnotm0, hndfl⟩ := collect_ok_shape prog _ 0 acts m hcc
  have hkeys' : keysOf m = ctxKind :: (prog.map outKindsOf).flatten := by
    rw [hkeys]
    rfl
  have hpresL : ∀ k ∈ keysOf m,
      (lookupC ({ initialSt prog with components := m } : St).components k).isSome
        = true := by
    intro k hk
    show (lookupC m k).isSome = true
    rw [lookupC_isSome_iff_mem]
    exact hk
  have hfL : ∀ k ∈ keysOf m, (rank k + 1) * (D + 2) ≤ fuel := by
    intro k hk
    apply Hfuel
    rw [hkeys'] at hk
    exact hk
  obtain ⟨stL, hloop, hInvL, hMonoL, hcycL, hvalL⟩ :=
    initializeComponentsLoop_ok prog rank D fuel (keysOf m)
      { initialSt prog with components := m } hInv0 rfl hpresL hfL
  have hic : initializeComponents fuel (initialSt prog) prog = (.ok acts, stL) := by
    simp only [initializeComponents, hcc, hloop]
  have hgetD : ∀ j (hj : j < prog.length), prog.getD j defaultInit = prog[j] := by
    intro j hj
    rw [List.getD_eq_getElem?_getD, List.getElem?_eq_getElem hj]
    rfl
  have hmemfl : ∀ p, p < prog.length → ∀ k ∈ outKindsOf (prog.getD p defaultInit),
      k ∈ (prog.map outKindsOf).flatten := by
    intro p hp k hk
    apply List.mem_flatten.mpr
    refine ⟨outKindsOf (prog.getD p defaultInit), ?_, hk⟩
    rw [hgetD p hp]
    exact List.mem_map.mpr ⟨prog[p], List.getElem_mem hp, rfl⟩
  have hactscond : ∀ a ∈ acts,
      (∀ d ∈ a.dependencies, (lookupC stL.components d).isSome = true) ∧
      (∀ e rest2, (prog.getD a.init defaultInit).rets = e :: rest2 →
        e.isNil = true) := by
    intro a ha
    obtain ⟨j, hj, hd, hi, ho⟩ := collect_acts prog _ 0 acts m hcc a ha
    constructor
    · intro d hdmem
      rw [hd] at hdmem
      have hdk := Hmiss j hj d hdmem
      rw [← hkeys'] at hdk
      rw [lookupC_isSome_iff_mem, hMonoL.keysEq]
      exact hdk
    · intro e rest2 hrets
      have hi' : a.init = j := by
        omega
      rw [hi'] at hrets
      obtain ⟨hr2, hisErr⟩ := outKinds_nil_rets _ e rest2 hrets ho
      subst hr2
      have hlast : (prog.getD j defaultInit).rets.getLast? = some e := by
        rw [hrets]
        rfl
      exact Hok j hj e hlast hisErr
  obtain ⟨stJ, hJ, hcmpJ, hcallsJ, hrunJ, hshutJ⟩ :=
    invokeInits_ok prog acts stL hMonoL.progEq hactscond
  have hNew : New fuel cs is =
      { app := ⟨stJ.components, stJ.runners, stJ.shutdowners⟩, err := none,
        final := stJ, shutdownEvents := [] } := by
    rw [New, ← hprogdef]
    simp only [hic, hJ]
  rw [hNew]
  refine ⟨rfl, ?_, ?_⟩
  · intro k hk
    have hkm : k ∈ keysOf m := by
      rw [hkeys']
      exact List.mem_cons_of_mem _ hk
    obtain ⟨c, hlc, hs⟩ := hvalL k hkm
    have hlc' : lookupC stJ.components k = some c := by
      rw [hcmpJ]
      exact hlc
    constructor
    · show (App.retrieveC ⟨stJ.components, stJ.runners, stJ.shutdowners⟩ k).1 = true
      simp only [App.retrieveC, hlc']
    · show (App.retrieveC ⟨stJ.components, stJ.runners, stJ.shutdowners⟩ k).2.isSome
        = true
      simp only [App.retrieveC, hlc']
      exact hs
  · intro p hp hne
    show ((stJ.calls.map Prod.fst).count p) = 1
    rw [hcallsJ]
    apply hInvL.countFired p hp ?_ hne
    intro k hk
    apply hvalL
    rw [hkeys']
    exact List.mem_cons_of_mem _ (hmemfl p hp k hk)

/-- Witness for C2 at a concrete program. -/
theorem c2_witness :
    (New 9 [] c2Program).err = none ∧
    (∀ k ∈ ((mergeComponentsInitializers [] c2Program).map outKindsOf).flatten,
      ((New 9 [] c2Program).app.retrieveC k).1 = true ∧
        ((New 9 [] c2Program).app.retrieveC k).2.isSome = true) ∧
    (∀ p, p < (mergeComponentsInitializers [] c2Program).length →
      outKindsOf ((mergeComponentsInitializers [] c2Program).getD p defaultInit) ≠ [] →
      (((New 9 [] c2Program).final.calls.map Prod.fst).count p) = 1) :=
  c2_wellformed_assembly 9 [] c2Program (fun k => k.id) 1
    (by decide) (by decide) (by decide) (by decide) (by decide) (by decide)
